import Mathlib

/-!
# MKDSTTEncoder: the time-trial code encoder of `encoder.c`

A shallow embedding of `src/encoder.c` and theorems about it.

Conventions of the embedding.

* `u8`, `u16` values are `Fin 256`, `Fin 65536`; C `int` values are `Int`; `u32` values and
  intermediate `int` results that are known to be non-negative are `Nat`, truncated with an
  explicit `% 2 ^ 32` (or `% 65536`, `% 256`) wherever the C code converts to the narrower type.
* A byte buffer (`u8 *`, `u8 code[10]`) is a `List u8`.  Every indexed read and write of a byte
  buffer or of `letterTable` is bounds-checked: an access outside the object gives `none`.
* The caller's `char *output` is a map from offsets to characters, so that a write to any offset
  is visible and the untouched offsets can be compared with their old contents.
* Multi-byte stores through a cast pointer (`*(u32 *)&code[0]`, `*(u16 *)&code[8]`) and the byte
  copy of `playerName` use little-endian byte order, the byte order of both targets of the
  source (the ARM9 of the console and the `_WIN32` build).
-/

namespace MKDSTT

/-! ## Types and constants -/

abbrev u8 := Fin 256
abbrev u16 := Fin 65536

/-- Truncation of a non-negative value to `u8`. -/
def toU8 (n : Nat) : u8 := ⟨n % 256, Nat.mod_lt n (by decide)⟩

def NUM_CUPS : Nat := 8
def COURSES_PER_CUP : Nat := 4

def MSECS_PER_SEC : Nat := 1000

def crcPoly : Nat := 0x1021

/-- Structure passed to the encoding function. -/
structure RaceStats where
  msecs : u16
  mins : u8
  secs : u8
  playerName : Fin 10 → u16
  isValid : u8
  character : u8
  kart : u8
  padding : Fin 5 → u8

/-- Letter lookup table for the custom base32 encoding: the 32 symbols of the string literal
followed by its terminating NUL (index 32). -/
def letterTable : List Char :=
  ['S', '7', 'L', 'C', 'X', '3', 'J', 'Z', 'E', '8', 'F', 'G', '4', 'H', 'B', 'K',
   'W', 'N', '5', '2', 'Y', 'P', 'A', '6', 'R', 'T', 'U', '9', 'V', 'M', 'D', 'Q',
   Char.ofNat 0]

/-- Course id table, where index of internal id = course. -/
def courseIdTable : List Int :=
  [20, 22, 31, 18, 27, 28, 33, 24,
   30, 17, 25, 19, 34, 26, 32, 29,
   10, 11, 13, 14, 35, 16, 12,  9,
   15, 36, 37, 38, 39, 23, 40,  1]

/-! ## Checked memory accesses -/

/-- Read of `m[i]`; `none` outside the buffer. -/
def load (m : List u8) (i : Nat) : Option u8 := m[i]?

/-- Write of `m[i] = v`; `none` outside the buffer. -/
def store (m : List u8) (i : Nat) (v : u8) : Option (List u8) :=
  if i < m.length then some (m.set i v) else none

/-- Write through `p[k]` for a pointer `p = &m[base]` whose offset `base` is a C `int`. -/
def storeAt (m : List u8) (base : Int) (k : Nat) (v : u8) : Option (List u8) :=
  if 0 ≤ base + k then store m (base + k).toNat v else none

/-! ## GetCourseId -/

/-- The inner `course` loop of `GetCourseId` for a fixed `cup`, from `course` on, with `n`
iterations left; the `break` leaves this loop only. `none` is a table read out of bounds. -/
def GetCourseId.inner (inId : Int) (cup : Nat) : Nat → Nat → Int → Option Int
  | 0, _, outId => some outId
  | n + 1, course, outId =>
    match courseIdTable[cup * COURSES_PER_CUP + course]? with
    | none => none
    | some id =>
      if inId = id then some ((cup * COURSES_PER_CUP + course : Nat) : Int)
      else GetCourseId.inner inId cup n (course + 1) outId

/-- The outer `cup` loop of `GetCourseId`, from `cup` on, with `n` iterations left. -/
def GetCourseId.outer (inId : Int) : Nat → Nat → Int → Option Int
  | 0, _, outId => some outId
  | n + 1, cup, outId =>
    match GetCourseId.inner inId cup COURSES_PER_CUP 0 outId with
    | none => none
    | some outId => GetCourseId.outer inId n (cup + 1) outId

/-- Converts an internal course id to an ordered course id. -/
def GetCourseId (inId : Int) : Option Int :=
  GetCourseId.outer inId NUM_CUPS 0 (-1)

/-! ## CalculateCRC16CCITT -/

/-- One iteration of the `j` loop of `CalculateCRC16CCITT` on the pair `(sum, ch)`:
`sum` is a `u16` and `ch` a `u8`, both truncated on assignment. -/
def crcBitStep (st : Nat × Nat) : Nat × Nat :=
  let sum := st.1
  let ch := st.2
  let sum := if sum &&& 0x8000 ≠ 0 then ((sum <<< 1) ^^^ crcPoly) % 65536 else (sum <<< 1) % 65536
  let sum := if ch &&& 0x80 ≠ 0 then (sum ^^^ 1) % 65536 else sum
  (sum, (ch <<< 1) % 256)

/-- The body of the `i` loop of `CalculateCRC16CCITT` for the byte `ch`: eight bit steps. -/
def crcByte (sum : Nat) (ch : u8) : Nat :=
  (crcBitStep^[8] (sum, ch.val)).1

/-- The `i` loop of `CalculateCRC16CCITT`: `data` is the buffer from the moving pointer on and
the counter is the number of iterations left; reading past the buffer is `none`. -/
def CalculateCRC16CCITT.loop : List u8 → Nat → Nat → Option Nat
  | _, 0, sum => some sum
  | [], _ + 1, _ => none
  | ch :: data, n + 1, sum => CalculateCRC16CCITT.loop data n (crcByte sum ch)

/-- An implementation of CRC16-CCITT (`len` is a `u32`). -/
def CalculateCRC16CCITT (data : List u8) (len : Nat) : Option Nat :=
  CalculateCRC16CCITT.loop data len 0

/-! ## CalculateCodeChecksum -/

/-- The value of the `OS_GetTick()` macro of the source. -/
def OS_GetTick : Nat := 0

/-- Embeds the checksum of `data[0 .. len)` in its last two bytes. `tick` is the value that
`OS_GetTick()` yields; `dataEnd` is `&data[len - 4]`. -/
def CalculateCodeChecksum (tick : Nat) (data : List u8) (len : Int) (flag : Int) :
    Option (List u8) := do
  let dataEnd : Int := len - 4
  let data ← if flag = 0 then (do
      let data ← storeAt data dataEnd 0 (toU8 0)
      storeAt data dataEnd 1 (toU8 0))
    else some data
  let data ← storeAt data dataEnd 2 (toU8 0)
  let data ← storeAt data dataEnd 3 (toU8 0)
  let crcSum ← CalculateCRC16CCITT data (len % 2 ^ 32).toNat
  let data ← if flag = 0 then (do
      let data ← storeAt data dataEnd 0 (toU8 ((tick >>> 16) &&& 0xff))
      storeAt data dataEnd 1 (toU8 (tick &&& 0xff)))
    else some data
  let data ← storeAt data dataEnd 2 (toU8 (crcSum >>> 8))
  storeAt data dataEnd 3 (toU8 (crcSum &&& 0xff))

/-! ## CalculateTimeTrialCode -/

/-- The two bytes of a `u16` in memory, low byte first. -/
def u16Bytes (v : u16) : List u8 := [toU8 v.val, toU8 (v.val >>> 8)]

/-- The 20 bytes of `stats->playerName` in memory. -/
def playerNameBytes (stats : RaceStats) : List u8 :=
  (List.ofFn stats.playerName).flatMap u16Bytes

/-- The store `*(u32 *)&m[i] = w`. -/
def storeU32 (m : List u8) (i : Nat) (w : Nat) : Option (List u8) := do
  let m ← store m i (toU8 w)
  let m ← store m (i + 1) (toU8 (w >>> 8))
  let m ← store m (i + 2) (toU8 (w >>> 16))
  store m (i + 3) (toU8 (w >>> 24))

/-- The store `*(u16 *)&m[i] = w`. -/
def storeU16 (m : List u8) (i : Nat) (w : Nat) : Option (List u8) := do
  let m ← store m i (toU8 w)
  store m (i + 1) (toU8 (w >>> 8))

/-- Byte copy `MI_CpuCopy8(src, &dest[off], size)` (a `memcpy`), `k` bytes already copied. -/
def MI_CpuCopy8 (src dest : List u8) (off : Nat) : Nat → Nat → Option (List u8)
  | 0, _ => some dest
  | n + 1, k => do
    let b ← load src k
    let dest ← store dest (off + k) b
    MI_CpuCopy8 src dest off n (k + 1)

/-- The race time in milliseconds, `u32 totalTime`. `MSECS_PER_MIN` expands to `1000 * 60`. -/
def totalTime (stats : RaceStats) : Nat :=
  (stats.msecs.val + stats.secs.val * MSECS_PER_SEC + stats.mins.val * 1000 * 60) % 2 ^ 32

/-- The combined id, `u32 kartCharacter`. -/
def kartCharacter (stats : RaceStats) : Nat :=
  (stats.character.val * 37 + stats.kart.val) % 2 ^ 32

/-- The bitfield stored in the first `u32` of the code:
`(totalTime << 14) | ((courseId % 32) << 9) | kartCharacter % 0x200`, where the middle operand
is an `int` converted to `u32`. -/
def packWord (totalTime : Nat) (courseId : Int) (kartCharacter : Nat) : Nat :=
  ((totalTime <<< 14) % 2 ^ 32) ||| ((Int.tmod courseId 32 * 2 ^ 9) % 2 ^ 32).toNat
    ||| (kartCharacter % 0x200)

/-- The code buffer as it is just before `CalculateCodeChecksum` is called: the bitfield, the
first two characters of the player name and the zeroed last `u16`. -/
def packCode (stats : RaceStats) (courseId : Int) : Option (List u8) := do
  let code : List u8 := List.replicate 10 0
  let code ← storeU32 code 0 (packWord (totalTime stats) courseId (kartCharacter stats))
  let code ← MI_CpuCopy8 (playerNameBytes stats) code 4 4 0
  storeU16 code 8 0

/-- The XOR loop `for (i = 9; i >= 0; i--)`, with `n = i + 1`. -/
def obfuscateLoop : Nat → List u8 → u8 → Option (List u8)
  | 0, code, _ => some code
  | i + 1, code, key => do
    let b ← load code i
    let v := toU8 (b.val ^^^ key.val)
    let code ← store code i v
    obfuscateLoop i code v

/-- The XOR obfuscation of the code with the initial key `0xC3`. -/
def obfuscate (code : List u8) : Option (List u8) :=
  obfuscateLoop 10 code (toU8 0xC3)

/-- The `bit` loop of the base32 encoder: `n` iterations left, `bit` is a `u8`, `encByte` a
`u16`, `bitOffset` a `u32`. -/
def encBits (code : List u8) (byte : Nat) : Nat → Nat → Nat → Option Nat
  | 0, _, encByte => some encByte
  | n + 1, bit, encByte => do
    let bitOffset := (byte + bit) % 2 ^ 32
    let b ← load code (bitOffset / 8)
    let encByte := encByte ||| ((b.val >>> (7 - bitOffset % 8)) &&& 1)
    let encByte := (encByte <<< 1) % 65536
    encBits code byte n ((bit + 1) % 256) encByte

/-- The `i` loop of the base32 encoder, `n` iterations left. -/
def encLoop (code : List u8) : Nat → Nat → Nat → (Nat → Char) → Option (Nat → Char)
  | 0, _, _, output => some output
  | n + 1, i, byte, output => do
    let encByte ← encBits code byte 5 0 0
    let c ← letterTable[encByte >>> 1]?
    encLoop code n (i + 1) (byte + 5) (Function.update output i c)

/-- Encodes the code to a base32 string using the custom lookup table. -/
def base32 (code : List u8) (output : Nat → Char) : Option (Nat → Char) :=
  encLoop code 16 0 0 output

/-- The encoder. The result is the returned `int` and the contents of `output` afterwards;
`none` is an access outside an array. `FOUR_MINUTES` expands to `4 * 1000 * 60`. -/
def CalculateTimeTrialCode (output : Nat → Char) (stats : RaceStats) (course : Int) :
    Option (Int × (Nat → Char)) :=
  if totalTime stats ≥ 4 * 1000 * 60 then some (0, output)
  else
    match GetCourseId course with
    | none => none
    | some courseId =>
      if courseId < 0 ∨ courseId > 31 then some (0, output)
      else if kartCharacter stats ≥ 0x200 then some (0, output)
      else do
        let code ← packCode stats courseId
        let code ← CalculateCodeChecksum OS_GetTick code 10 1
        let code ← obfuscate code
        let output ← base32 code output
        some (1, output)

/-! ## The demonstration of `main` -/

/-- The record of `main`; the fields that `main` leaves uninitialised are parameters. -/
def mainStats (rest : Fin 10 → u16) (isValid : u8) (padding : Fin 5 → u8) : RaceStats where
  msecs := 994
  mins := 0
  secs := 45
  playerName := fun i => if i.val = 0 then 0x004D else if i.val = 1 then 0x004B else rest i
  isValid := isValid
  character := 6
  kart := 34
  padding := padding

/-- A record with the time, ids and first two name units of the record of `main`, with the
time split as 0:44.1994 and other values in the fields that are not encoded. -/
def mainStatsVariant : RaceStats where
  msecs := 1994
  mins := 0
  secs := 44
  playerName := fun i => if i.val = 0 then 0x004D else if i.val = 1 then 0x004B else 0x0041
  isValid := 1
  character := 6
  kart := 34
  padding := fun _ => 0xFF

/-- A record that the encoder accepts although its kart id is not below 37. -/
def kart37Stats : RaceStats where
  msecs := 0
  mins := 0
  secs := 0
  playerName := fun _ => 0
  isValid := 0
  character := 0
  kart := 37
  padding := fun _ => 0

/-! ## Notions used to state the specification -/

/-- The elapsed time of a record in milliseconds, as a natural number (no truncation). -/
def totalMs (stats : RaceStats) : Nat :=
  stats.msecs.val + 1000 * stats.secs.val + 60000 * stats.mins.val

/-- The combination `character * 37 + kart`, as a natural number (no truncation). -/
def kartCode (stats : RaceStats) : Nat := stats.character.val * 37 + stats.kart.val

/-- The three conditions under which a record is encodable. -/
def Accepted (stats : RaceStats) (course : Int) : Prop :=
  totalMs stats < 240000 ∧ course ∈ courseIdTable ∧ kartCode stats < 512

instance (stats : RaceStats) (course : Int) : Decidable (Accepted stats course) := by
  unfold Accepted; infer_instance

/-- The value of a buffer read as one big-endian integer (byte 0 is the most significant). -/
def beValue (code : List u8) : Nat := code.foldl (fun acc b => acc * 256 + b.val) 0

/-- Bit `p` of a buffer read as a big-endian bitstream: bit 0 is the most significant bit of
byte 0. -/
def streamBit (code : List u8) (p : Nat) : Nat := ((code.getD (p / 8) 0).val >>> (7 - p % 8)) % 2

/-- The 5-bit value of group `g` of the 80-bit big-endian bitstream of `code`. -/
def groupValue (code : List u8) (g : Nat) : Nat := (beValue code >>> (75 - 5 * g)) % 32

/-- One shift-and-conditional-XOR step of CRC-16/XMODEM: shift the 16-bit register left by one
and XOR `0x1021` when the bit shifted out was 1. -/
def xmodemShift (reg : Nat) : Nat :=
  if reg &&& 0x8000 ≠ 0 then ((reg <<< 1) ^^^ 0x1021) % 65536 else (reg <<< 1) % 65536

/-- The byte step of CRC-16/XMODEM: XOR the byte into the high 8 bits of the register, then
eight shift steps. -/
def xmodemByte (reg : Nat) (b : u8) : Nat := xmodemShift^[8] (reg ^^^ (b.val <<< 8))

/-- The standard CRC-16/XMODEM of a byte sequence: polynomial `0x1021`, MSB first, initial
register 0, no final XOR, no reflection. -/
def crc16Xmodem (data : List u8) : Nat := data.foldl xmodemByte 0

/-- What a caller observes of a call: the returned `int` together with the sixteen characters
at offsets 0..15 of the output buffer afterwards. -/
def codeOf (r : Option (Int × (Nat → Char))) : Option (Int × List Char) :=
  r.map (fun p => (p.1, (List.range 16).map p.2))

/-- The nine ASCII bytes of the check string `123456789`. -/
def checkString : List u8 := [0x31, 0x32, 0x33, 0x34, 0x35, 0x36, 0x37, 0x38, 0x39]

/-! ## Lemmas: course table -/

theorem GetCourseId_eq (inId : Int) :
    GetCourseId inId =
      some (if inId ∈ courseIdTable then (courseIdTable.indexOf inId : Int) else -1) := by
  by_cases h : inId ∈ courseIdTable
  · rw [if_pos h]
    simp only [courseIdTable, List.mem_cons, List.mem_singleton, List.not_mem_nil, or_false] at h
    rcases h with h | h | h | h | h | h | h | h | h | h | h | h | h | h | h | h | h | h | h | h
      | h | h | h | h | h | h | h | h | h | h | h | h <;> subst h <;> rfl
  · rw [if_neg h]
    simp [courseIdTable] at h
    simp [GetCourseId, GetCourseId.outer, GetCourseId.inner, courseIdTable, NUM_CUPS,
      COURSES_PER_CUP, h]

theorem GetCourseId_mem (inId : Int) (h : inId ∈ courseIdTable) :
    ∃ n : Nat, n < 32 ∧ courseIdTable[n]? = some inId ∧ GetCourseId inId = some (n : Int) := by
  refine ⟨courseIdTable.indexOf inId, ?_, ?_, ?_⟩
  · exact List.indexOf_lt_length.2 h
  · rw [List.getElem?_eq_getElem (List.indexOf_lt_length.2 h)]
    simp
  · rw [GetCourseId_eq, if_pos h]

theorem GetCourseId_not_mem (inId : Int) (h : inId ∉ courseIdTable) :
    GetCourseId inId = some (-1) := by
  rw [GetCourseId_eq, if_neg h]

/-! ## Lemmas: the stages of the encoder -/

theorem list10 {α : Type} (c : List α) (h : c.length = 10) :
    ∃ b0 b1 b2 b3 b4 b5 b6 b7 b8 b9, c = [b0, b1, b2, b3, b4, b5, b6, b7, b8, b9] := by
  rcases c with _ | ⟨b0, c⟩; · simp at h
  rcases c with _ | ⟨b1, c⟩; · simp at h
  rcases c with _ | ⟨b2, c⟩; · simp at h
  rcases c with _ | ⟨b3, c⟩; · simp at h
  rcases c with _ | ⟨b4, c⟩; · simp at h
  rcases c with _ | ⟨b5, c⟩; · simp at h
  rcases c with _ | ⟨b6, c⟩; · simp at h
  rcases c with _ | ⟨b7, c⟩; · simp at h
  rcases c with _ | ⟨b8, c⟩; · simp at h
  rcases c with _ | ⟨b9, c⟩; · simp at h
  rcases c with _ | ⟨x, c⟩
  · exact ⟨b0, b1, b2, b3, b4, b5, b6, b7, b8, b9, rfl⟩
  · simp at h

theorem totalTime_eq (stats : RaceStats) : totalTime stats = totalMs stats := by
  have h1 := stats.msecs.isLt
  have h2 := stats.secs.isLt
  have h3 := stats.mins.isLt
  unfold totalTime totalMs MSECS_PER_SEC
  omega

theorem kartCharacter_eq (stats : RaceStats) : kartCharacter stats = kartCode stats := by
  have h1 := stats.character.isLt
  have h2 := stats.kart.isLt
  unfold kartCharacter kartCode
  omega

theorem packCode_eq (stats : RaceStats) (courseId : Int) :
    packCode stats courseId =
      some [toU8 (packWord (totalTime stats) courseId (kartCharacter stats)),
            toU8 (packWord (totalTime stats) courseId (kartCharacter stats) >>> 8),
            toU8 (packWord (totalTime stats) courseId (kartCharacter stats) >>> 16),
            toU8 (packWord (totalTime stats) courseId (kartCharacter stats) >>> 24),
            toU8 (stats.playerName 0).val, toU8 ((stats.playerName 0).val >>> 8),
            toU8 (stats.playerName 1).val, toU8 ((stats.playerName 1).val >>> 8),
            toU8 0, toU8 0] := by
  rfl

theorem crcLoop_eq (data : List u8) (sum : Nat) :
    CalculateCRC16CCITT.loop data data.length sum = some (data.foldl crcByte sum) := by
  induction data generalizing sum with
  | nil => rfl
  | cons ch data ih => simp [CalculateCRC16CCITT.loop, ih]

theorem CalculateCRC16CCITT_eq (data : List u8) :
    CalculateCRC16CCITT data data.length = some (data.foldl crcByte 0) :=
  crcLoop_eq data 0

theorem checksum10 (tick : Nat) (b0 b1 b2 b3 b4 b5 b6 b7 b8 b9 : u8) :
    CalculateCodeChecksum tick [b0, b1, b2, b3, b4, b5, b6, b7, b8, b9] 10 1 =
      some [b0, b1, b2, b3, b4, b5, b6, b7,
        toU8 ((List.foldl crcByte 0 [b0, b1, b2, b3, b4, b5, b6, b7, toU8 0, toU8 0]) >>> 8),
        toU8 ((List.foldl crcByte 0 [b0, b1, b2, b3, b4, b5, b6, b7, toU8 0, toU8 0])
          &&& 0xff)] := by
  rfl

theorem obfuscate10 (b0 b1 b2 b3 b4 b5 b6 b7 b8 b9 : u8) :
    obfuscate [b0, b1, b2, b3, b4, b5, b6, b7, b8, b9] =
      (let o9 := toU8 (b9.val ^^^ (toU8 0xC3).val)
       let o8 := toU8 (b8.val ^^^ o9.val)
       let o7 := toU8 (b7.val ^^^ o8.val)
       let o6 := toU8 (b6.val ^^^ o7.val)
       let o5 := toU8 (b5.val ^^^ o6.val)
       let o4 := toU8 (b4.val ^^^ o5.val)
       let o3 := toU8 (b3.val ^^^ o4.val)
       let o2 := toU8 (b2.val ^^^ o3.val)
       let o1 := toU8 (b1.val ^^^ o2.val)
       let o0 := toU8 (b0.val ^^^ o1.val)
       some [o0, o1, o2, o3, o4, o5, o6, o7, o8, o9]) := by
  rfl

theorem packCode_length (stats : RaceStats) (courseId : Int) :
    ∃ c, packCode stats courseId = some c ∧ c.length = 10 :=
  ⟨_, packCode_eq stats courseId, rfl⟩

theorem checksum_length (tick : Nat) (c : List u8) (h : c.length = 10) :
    ∃ c2, CalculateCodeChecksum tick c 10 1 = some c2 ∧ c2.length = 10 := by
  obtain ⟨b0, b1, b2, b3, b4, b5, b6, b7, b8, b9, rfl⟩ := list10 c h
  exact ⟨_, checksum10 tick b0 b1 b2 b3 b4 b5 b6 b7 b8 b9, rfl⟩

theorem obfuscate_length (c : List u8) (h : c.length = 10) :
    ∃ c2, obfuscate c = some c2 ∧ c2.length = 10 := by
  obtain ⟨b0, b1, b2, b3, b4, b5, b6, b7, b8, b9, rfl⟩ := list10 c h
  exact ⟨_, obfuscate10 b0 b1 b2 b3 b4 b5 b6 b7 b8 b9, rfl⟩

/-! ## Lemmas: the base32 loops -/

theorem beValue_append_singleton (l : List u8) (x : u8) :
    beValue (l ++ [x]) = beValue l * 256 + x.val := by
  simp [beValue, List.foldl_append]

/-- Bit `p` of the big-endian bitstream of a buffer is bit `7 - p % 8` of byte `p / 8`. -/
theorem bitAt_beValue (l : List u8) :
    ∀ p, p < 8 * l.length → ∃ b, load l (p / 8) = some b ∧
      (b.val >>> (7 - p % 8)) &&& 1 = (beValue l / 2 ^ (8 * l.length - 1 - p)) % 2 := by
  induction l using List.reverseRecOn with
  | nil => intro p hp; simp at hp
  | append_singleton l x ih =>
    intro p hp
    rw [List.length_append, List.length_singleton] at hp
    rw [beValue_append_singleton, List.length_append, List.length_singleton]
    by_cases hlt : p < 8 * l.length
    · obtain ⟨b, hb, hbit⟩ := ih p hlt
      refine ⟨b, ?_, ?_⟩
      · unfold load at hb ⊢
        rw [List.getElem?_append_left (by omega)]
        exact hb
      · rw [hbit]
        have e : 8 * (l.length + 1) - 1 - p = 8 + (8 * l.length - 1 - p) := by omega
        rw [e, pow_add, ← Nat.div_div_eq_div_mul]
        have : (beValue l * 256 + x.val) / 2 ^ 8 = beValue l := by
          have := x.isLt
          omega
        rw [this]
    · have hq : p / 8 = l.length := by omega
      refine ⟨x, ?_, ?_⟩
      · unfold load
        rw [hq, List.getElem?_append_right (le_refl _)]
        simp
      · have e : 8 * (l.length + 1) - 1 - p = 7 - p % 8 := by omega
        rw [e, Nat.and_one_is_mod, Nat.shiftRight_eq_div_pow]
        have hk : 7 - p % 8 ≤ 7 := by omega
        generalize 7 - p % 8 = k at hk
        generalize beValue l = N
        interval_cases k <;> simp only [Nat.reducePow] <;> omega

/-- The `bit` loop computes a window of the bitstream `N`, given that the reads of `code`
return the bits of `N`. -/
theorem encBits_window (code : List u8) (N byte : Nat)
    (hload : ∀ p, p < 80 → ∃ b, load code (p / 8) = some b ∧
      (b.val >>> (7 - p % 8)) &&& 1 = (N / 2 ^ (79 - p)) % 2) :
    ∀ n bit enc, byte + bit + n ≤ 80 → bit + n ≤ 5 →
      enc = 2 * ((N / 2 ^ (80 - byte - bit)) % 2 ^ bit) →
      encBits code byte n bit enc =
        some (2 * ((N / 2 ^ (80 - byte - bit - n)) % 2 ^ (bit + n))) := by
  intro n
  induction n with
  | zero => intro bit enc _ _ h; simp [encBits, h]
  | succ n ih =>
    intro bit enc h1 h2 h
    obtain ⟨b, hb, hbit⟩ := hload (byte + bit) (by omega)
    have hoff : (byte + bit) % 2 ^ 32 = byte + bit := Nat.mod_eq_of_lt (by omega)
    have hbit1 : (bit + 1) % 256 = bit + 1 := Nat.mod_eq_of_lt (by omega)
    simp only [encBits, hoff, hb, hbit, hbit1, Option.bind_eq_bind, Option.some_bind]
    set M := N / 2 ^ (79 - (byte + bit)) with hM
    have hdiv : N / 2 ^ (80 - byte - bit) = M / 2 := by
      rw [hM, Nat.div_div_eq_div_mul, ← pow_succ]
      congr 2; omega
    have hor : enc ||| M % 2 = enc + M % 2 := by
      rw [h]
      have := Nat.mul_add_lt_is_or (i := 1) (b := M % 2) (by omega)
        ((N / 2 ^ (80 - byte - bit)) % 2 ^ bit)
      simpa using this.symm
    have hlt : (N / 2 ^ (80 - byte - bit)) % 2 ^ bit < 2 ^ bit := Nat.mod_lt _ (by positivity)
    have hpow : 2 ^ bit ≤ 2 ^ 4 := Nat.pow_le_pow_right (by decide) (by omega)
    have key : M % 2 ^ (bit + 1) = M % 2 + 2 * (M / 2 % 2 ^ bit) := by
      rw [pow_succ, Nat.mul_comm, Nat.mod_mul]
    have henc : ((enc + M % 2) <<< 1) % 65536 = 2 * (M % 2 ^ (bit + 1)) := by
      rw [Nat.shiftLeft_eq, h, hdiv, key]
      rw [hdiv] at hlt
      omega
    rw [hor, henc]
    have e1 : 80 - byte - (bit + 1) = 79 - (byte + bit) := by omega
    have e2 : 80 - byte - (bit + 1) - n = 80 - byte - bit - (n + 1) := by omega
    have e3 : bit + 1 + n = bit + (n + 1) := by omega
    have := ih (bit + 1) (2 * (M % 2 ^ (bit + 1))) (by omega) (by omega) (by rw [e1])
    rw [this, e2, e3]

theorem groupValue_lt (code : List u8) (g : Nat) : groupValue code g < 32 :=
  Nat.mod_lt _ (by decide)

/-- The five-bit loop of group `g` leaves twice the group value in `encByte`. -/
theorem encBits_group (code : List u8) (hlen : code.length = 10) (g : Nat) (hg : g < 16) :
    encBits code (5 * g) 5 0 0 = some (2 * groupValue code g) := by
  have hload : ∀ p, p < 80 → ∃ b, load code (p / 8) = some b ∧
      (b.val >>> (7 - p % 8)) &&& 1 = (beValue code / 2 ^ (79 - p)) % 2 := by
    intro p hp
    have := bitAt_beValue code p (by omega)
    rw [hlen] at this
    exact this
  have := encBits_window code (beValue code) (5 * g) hload 5 0 0 (by omega) (by omega)
    (by rw [pow_zero, Nat.mod_one])
  rw [this, groupValue, Nat.shiftRight_eq_div_pow]
  have e : 80 - 5 * g - 0 - 5 = 75 - 5 * g := by omega
  rw [e]; rfl

theorem letterTable_getElem? (v : Nat) (hv : v < 32) :
    letterTable[v]? = some (letterTable.getD v 'S') ∧ letterTable.getD v 'S' ∈ letterTable.take 32 := by
  interval_cases v <;> exact ⟨rfl, by decide⟩

/-- The result of the `i` loop from iteration `i` on. -/
theorem encLoop_eq (code : List u8) (hlen : code.length = 10) :
    ∀ n i output, i + n = 16 →
      encLoop code n i (5 * i) output =
        some (fun j => if i ≤ j ∧ j < 16 then letterTable.getD (groupValue code j) 'S'
          else output j) := by
  intro n
  induction n with
  | zero =>
    intro i output h
    simp only [encLoop]
    congr 1; funext j
    rw [if_neg (by omega)]
  | succ n ih =>
    intro i output h
    have h2 : (2 * groupValue code i) >>> 1 = groupValue code i := by
      rw [Nat.shiftRight_eq_div_pow]; omega
    simp only [encLoop, encBits_group code hlen i (by omega), Option.bind_eq_bind,
      Option.some_bind, h2, (letterTable_getElem? _ (groupValue_lt code i)).1]
    have e : 5 * i + 5 = 5 * (i + 1) := by ring
    rw [e, ih (i + 1) _ (by omega)]
    congr 1; funext j
    by_cases hj : j = i
    · subst hj
      have : ¬ (j + 1 ≤ j ∧ j < 16) := by omega
      rw [if_neg this, Function.update_same, if_pos ⟨le_refl _, by omega⟩]
    · rw [Function.update_noteq hj]
      have : (i + 1 ≤ j ∧ j < 16) ↔ (i ≤ j ∧ j < 16) := by omega
      simp only [this]

theorem base32_eq (code : List u8) (hlen : code.length = 10) (output : Nat → Char) :
    base32 code output =
      some (fun j => if j < 16 then letterTable.getD (groupValue code j) 'S' else output j) := by
  have := encLoop_eq code hlen 16 0 output (by omega)
  simpa [base32] using this

theorem streamBit_eq (code : List u8) (h : code.length = 10) (p : Nat) (hp : p < 80) :
    streamBit code p = (beValue code / 2 ^ (79 - p)) % 2 := by
  obtain ⟨b, hb, hbit⟩ := bitAt_beValue code p (by omega)
  rw [h] at hbit
  unfold load at hb
  rw [← hbit, Nat.and_one_is_mod]
  unfold streamBit
  rw [List.getD_eq_getElem?_getD, hb]
  rfl

/-- A 5-bit window of a number is the sum of its five bits. -/
theorem window_bits (N s : Nat) :
    (N / 2 ^ s) % 32 = 16 * ((N / 2 ^ (s + 4)) % 2) + 8 * ((N / 2 ^ (s + 3)) % 2)
      + 4 * ((N / 2 ^ (s + 2)) % 2) + 2 * ((N / 2 ^ (s + 1)) % 2) + (N / 2 ^ s) % 2 := by
  simp only [pow_add, ← Nat.div_div_eq_div_mul]
  generalize N / 2 ^ s = M
  simp only [Nat.reducePow]
  omega

/-! ## Lemmas: the whole encoder -/

theorem CalculateTimeTrialCode_reject (output : Nat → Char) (stats : RaceStats) (course : Int)
    (h : ¬ Accepted stats course) :
    CalculateTimeTrialCode output stats course = some (0, output) := by
  unfold CalculateTimeTrialCode
  rw [totalTime_eq, kartCharacter_eq]
  by_cases h1 : totalMs stats ≥ 4 * 1000 * 60
  · rw [if_pos h1]
  · rw [if_neg h1]
    by_cases h2 : course ∈ courseIdTable
    · obtain ⟨n, hn, _, hget⟩ := GetCourseId_mem course h2
      rw [hget]
      have h3 : ¬ ((n : Int) < 0 ∨ (n : Int) > 31) := by omega
      have h4 : kartCode stats ≥ 0x200 := by
        by_contra h4
        exact h ⟨by omega, h2, by omega⟩
      simp only [if_neg h3, if_pos h4]
    · rw [GetCourseId_not_mem course h2]
      simp

theorem CalculateTimeTrialCode_accept (output : Nat → Char) (stats : RaceStats) (course : Int)
    (h : Accepted stats course) :
    ∃ (n : Nat) (packed summed code : List u8),
      n < 32 ∧ courseIdTable[n]? = some course ∧ GetCourseId course = some (n : Int) ∧
      packCode stats n = some packed ∧ packed.length = 10 ∧
      CalculateCodeChecksum OS_GetTick packed 10 1 = some summed ∧ summed.length = 10 ∧
      obfuscate summed = some code ∧ code.length = 10 ∧
      CalculateTimeTrialCode output stats course =
        some (1, fun j => if j < 16 then letterTable.getD (groupValue code j) 'S'
          else output j) := by
  obtain ⟨h1, h2, h3⟩ := h
  obtain ⟨n, hn, htab, hget⟩ := GetCourseId_mem course h2
  obtain ⟨packed, hpack, hpl⟩ := packCode_length stats n
  obtain ⟨summed, hsum, hsl⟩ := checksum_length OS_GetTick packed hpl
  obtain ⟨code, hobf, hcl⟩ := obfuscate_length summed hsl
  refine ⟨n, packed, summed, code, hn, htab, hget, hpack, hpl, hsum, hsl, hobf, hcl, ?_⟩
  unfold CalculateTimeTrialCode
  have h4 : ¬ (totalTime stats ≥ 4 * 1000 * 60) := by rw [totalTime_eq]; omega
  have h5 : ¬ ((n : Int) < 0 ∨ (n : Int) > 31) := by omega
  have h6 : ¬ (kartCharacter stats ≥ 0x200) := by rw [kartCharacter_eq]; omega
  rw [if_neg h4, hget]
  simp only [if_neg h5, if_neg h6, hpack, Option.bind_eq_bind, Option.some_bind, hsum,
    hobf, base32_eq code hcl output]

/-- The encoder always returns, and it returns 1 exactly on the accepted inputs. -/
theorem returns_one_iff (output : Nat → Char) (stats : RaceStats) (course : Int) :
    (CalculateTimeTrialCode output stats course).map Prod.fst = some 1 ↔
      Accepted stats course := by
  by_cases h : Accepted stats course
  · obtain ⟨n, packed, summed, code, _, _, _, _, _, _, _, _, _, hrun⟩ :=
      CalculateTimeTrialCode_accept output stats course h
    simp [hrun, h]
  · simp [CalculateTimeTrialCode_reject output stats course h, h]

theorem letterTable_symbols : letterTable.take 32 = "S7LCX3JZE8FG4HBKWN52YPA6RTU9VMDQ".toList := by
  decide

/-! ## Lemmas: the bitfield -/

theorem and_shiftLeft_of_lt (x y i : Nat) (hy : y < 2 ^ i) : (x <<< i) &&& y = 0 := by
  apply Nat.eq_of_testBit_eq
  intro j
  rw [Nat.testBit_and, Nat.testBit_shiftLeft, Nat.zero_testBit]
  by_cases hj : j ≥ i
  · have : y < 2 ^ j := lt_of_lt_of_le hy (Nat.pow_le_pow_right (by decide) hj)
    rw [Nat.testBit_lt_two_pow this, Bool.and_false]
  · simp [hj]

theorem tmod_shift (n : Nat) (hn : n < 32) :
    ((Int.tmod (n : Int) 32 * 2 ^ 9) % 2 ^ 32).toNat = n <<< 9 := by
  interval_cases n <;> rfl

/-- On accepted values the bitfield is the sum of its three shifted fields. -/
theorem packWord_eq (t n k : Nat) (ht : t < 240000) (hn : n < 32) (hk : k < 512) :
    packWord t (n : Int) k = (t <<< 14) ||| (n <<< 9) ||| k ∧
    (t <<< 14) ||| (n <<< 9) ||| k = t * 16384 + n * 512 + k := by
  have h1 : (t <<< 14) % 2 ^ 32 = t <<< 14 := by
    rw [Nat.shiftLeft_eq]; exact Nat.mod_eq_of_lt (by omega)
  have h2 : k % 0x200 = k := Nat.mod_eq_of_lt hk
  refine ⟨by unfold packWord; rw [h1, h2, tmod_shift n hn], ?_⟩
  have a1 := Nat.mul_add_lt_is_or (i := 14) (b := n <<< 9) (by rw [Nat.shiftLeft_eq]; omega) t
  have a2 := Nat.mul_add_lt_is_or (i := 9) (b := k) (by omega) (32 * t + n)
  have e1 : t <<< 14 = 2 ^ 14 * t := by rw [Nat.shiftLeft_eq, Nat.mul_comm]
  have e2 : 2 ^ 14 * t + n <<< 9 = 2 ^ 9 * (32 * t + n) := by rw [Nat.shiftLeft_eq]; omega
  rw [e1, ← a1, e2, ← a2]
  omega

theorem toU8_val (n : Nat) : (toU8 n).val = n % 256 := rfl

/-! ## Lemmas: the CRC register -/

theorem and_8000_ne_zero (s : Nat) : (s &&& 0x8000 ≠ 0) ↔ s.testBit 15 = true := by
  constructor
  · intro h
    by_contra hb
    apply h
    apply Nat.eq_of_testBit_eq
    intro j
    have e : (0x8000 : Nat) = 2 ^ 15 := by norm_num
    rw [Nat.testBit_and, e, Nat.testBit_two_pow, Nat.zero_testBit]
    by_cases hj : 15 = j
    · subst hj; simp [hb]
    · simp [hj]
  · intro hb h
    have : (s &&& 0x8000).testBit 15 = true := by
      have e : (0x8000 : Nat) = 2 ^ 15 := by norm_num
      rw [Nat.testBit_and, e, Nat.testBit_two_pow, hb]; simp
    rw [h] at this
    simp at this

/-- The shift step as one XOR with the polynomial selected by bit 15. -/
theorem xmodemShift_eq (s : Nat) :
    xmodemShift s = ((s <<< 1) ^^^ (if s.testBit 15 then 0x1021 else 0)) % 65536 := by
  unfold xmodemShift
  by_cases h : s.testBit 15 = true
  · rw [if_pos ((and_8000_ne_zero s).2 h), if_pos h]
  · rw [if_neg (fun h2 => h ((and_8000_ne_zero s).1 h2)), if_neg h, Nat.xor_zero]

theorem xmodemShift_lt (s : Nat) : xmodemShift s < 65536 := by
  rw [xmodemShift_eq]; exact Nat.mod_lt _ (by decide)

/-- The shift step is linear over XOR. -/
theorem xmodemShift_xor (a b : Nat) :
    xmodemShift (a ^^^ b) = xmodemShift a ^^^ xmodemShift b := by
  rw [xmodemShift_eq, xmodemShift_eq, xmodemShift_eq]
  apply Nat.eq_of_testBit_eq
  intro j
  have e : (65536 : Nat) = 2 ^ 16 := by norm_num
  simp only [e, Nat.testBit_mod_two_pow, Nat.testBit_xor, Nat.testBit_shiftLeft]
  cases ha : a.testBit 15 <;> cases hb : b.testBit 15 <;>
    cases hj : decide (j < 16) <;> cases hj1 : decide (j ≥ 1) <;>
    cases hp : (0x1021 : Nat).testBit j <;>
    cases hx : a.testBit (j - 1) <;> cases hy : b.testBit (j - 1) <;> simp [hp]

theorem xmodemShift_iterate_xor (k a b : Nat) :
    xmodemShift^[k] (a ^^^ b) = xmodemShift^[k] a ^^^ xmodemShift^[k] b := by
  induction k generalizing a b with
  | zero => rfl
  | succ k ih => simp only [Function.iterate_succ_apply, xmodemShift_xor, ih]

theorem xmodemShift_zero : xmodemShift 0 = 0 := by decide

theorem xmodemShift_iterate_zero (k : Nat) : xmodemShift^[k] 0 = 0 := by
  induction k with
  | zero => rfl
  | succ k ih => rw [Function.iterate_succ_apply, xmodemShift_zero, ih]

/-- One bit step of the source in terms of the shift step. -/
theorem crcBitStep_eq (s c : Nat) :
    crcBitStep (s, c) = (xmodemShift s ^^^ (if c &&& 0x80 ≠ 0 then 1 else 0), (c <<< 1) % 256) := by
  have hlt := xmodemShift_lt s
  unfold crcBitStep
  simp only [crcPoly]
  by_cases hc : c &&& 0x80 ≠ 0
  · simp only [if_pos hc]
    congr 1
    exact Nat.mod_eq_of_lt (Nat.xor_lt_two_pow (n := 16) hlt (by decide))
  · simp only [if_neg hc, Nat.xor_zero]
    rfl

theorem crcBitStep_xor (s t c : Nat) :
    crcBitStep (s ^^^ t, c) = (xmodemShift s ^^^ (crcBitStep (t, c)).1, (crcBitStep (t, c)).2) := by
  rw [crcBitStep_eq, crcBitStep_eq, xmodemShift_xor, Nat.xor_assoc]

theorem crcBitStep_iterate_xor (k s t c : Nat) :
    crcBitStep^[k] (s ^^^ t, c) =
      (xmodemShift^[k] s ^^^ (crcBitStep^[k] (t, c)).1, (crcBitStep^[k] (t, c)).2) := by
  induction k generalizing s t c with
  | zero => rfl
  | succ k ih =>
    rw [Function.iterate_succ_apply, crcBitStep_xor, ih, Function.iterate_succ_apply,
      Function.iterate_succ_apply]

theorem crcBitStep8_zero : ∀ c : Fin 256, (crcBitStep^[8] (0, c.val)).1 = c.val := by decide!

theorem xmodemShift8_byte : ∀ c : Fin 256, xmodemShift^[8] c.val = c.val <<< 8 := by decide!

/-- The byte step of the source shifts the register eight times and XORs the byte into its low
end. -/
theorem crcByte_eq (s : Nat) (ch : u8) : crcByte s ch = xmodemShift^[8] s ^^^ ch.val := by
  unfold crcByte
  have := crcBitStep_iterate_xor 8 s 0 ch.val
  rw [Nat.xor_zero] at this
  rw [this, crcBitStep8_zero]

theorem xmodemByte_eq (x : Nat) (b : u8) :
    xmodemByte x b = xmodemShift^[8] x ^^^ xmodemShift^[16] b.val := by
  unfold xmodemByte
  rw [xmodemShift_iterate_xor, ← xmodemShift8_byte b, ← Function.iterate_add_apply]

/-- The XMODEM register is the register of the source shifted sixteen more times. -/
theorem xmodem_fold_eq (d : List u8) :
    ∀ c x, x = xmodemShift^[16] c →
      d.foldl xmodemByte x = xmodemShift^[16] (d.foldl crcByte c) := by
  induction d with
  | nil => intro c x h; exact h
  | cons b d ih =>
    intro c x h
    simp only [List.foldl_cons]
    apply ih
    rw [xmodemByte_eq, crcByte_eq, xmodemShift_iterate_xor, h, ← Function.iterate_add_apply,
      ← Function.iterate_add_apply]

theorem crc16Xmodem_eq (d : List u8) : crc16Xmodem d = xmodemShift^[16] (d.foldl crcByte 0) :=
  xmodem_fold_eq d 0 0 (xmodemShift_iterate_zero 16).symm

theorem crc_fold_append_two (d : List u8) (a b : u8) :
    (d ++ [a, b]).foldl crcByte 0 = crc16Xmodem d ^^^ (a.val <<< 8 ^^^ b.val) := by
  rw [List.foldl_append, List.foldl_cons, List.foldl_cons, List.foldl_nil, crcByte_eq,
    crcByte_eq, xmodemShift_iterate_xor, ← Function.iterate_add_apply, crc16Xmodem_eq,
    xmodemShift8_byte a, Nat.xor_assoc]

theorem crcByte_lt (s : Nat) (ch : u8) : crcByte s ch < 65536 := by
  rw [crcByte_eq]
  have h1 : xmodemShift^[8] s < 2 ^ 16 := by
    rw [Function.iterate_succ_apply']
    exact xmodemShift_lt _
  exact Nat.xor_lt_two_pow h1 (lt_trans ch.isLt (by decide))

theorem crc_fold_lt (data : List u8) (s : Nat) (hs : s < 65536) :
    data.foldl crcByte s < 65536 := by
  induction data generalizing s with
  | nil => exact hs
  | cons b data ih => exact ih _ (crcByte_lt s b)

/-- The checksum embedding on a 10-byte buffer, in mode `flag = 1`. -/
theorem checksum10_spec (tick : Nat) (c : List u8) (h : c.length = 10) :
    ∃ (summed : List u8) (crc : Nat),
      CalculateCodeChecksum tick c 10 1 = some summed ∧ summed.length = 10 ∧
      summed.take 8 = c.take 8 ∧
      CalculateCRC16CCITT ((c.set 8 0).set 9 0) 10 = some crc ∧
      CalculateCRC16CCITT ((summed.set 8 0).set 9 0) 10 = some crc ∧
      crc < 65536 ∧
      (summed.getD 8 0).val = crc >>> 8 ∧ (summed.getD 9 0).val = crc &&& 0xff := by
  obtain ⟨b0, b1, b2, b3, b4, b5, b6, b7, b8, b9, rfl⟩ := list10 c h
  have hlt := crc_fold_lt [b0, b1, b2, b3, b4, b5, b6, b7, toU8 0, toU8 0] 0 (by decide)
  refine ⟨_, List.foldl crcByte 0 [b0, b1, b2, b3, b4, b5, b6, b7, toU8 0, toU8 0],
    checksum10 tick b0 b1 b2 b3 b4 b5 b6 b7 b8 b9, rfl, rfl,
    CalculateCRC16CCITT_eq [b0, b1, b2, b3, b4, b5, b6, b7, toU8 0, toU8 0],
    CalculateCRC16CCITT_eq [b0, b1, b2, b3, b4, b5, b6, b7, toU8 0, toU8 0], hlt, ?_, ?_⟩
  · show (_ >>> 8) % 256 = _
    rw [Nat.shiftRight_eq_div_pow] 
    omega
  · show (_ &&& 0xff) % 256 = _
    have e : (0xff : Nat) = 2 ^ 8 - 1 := by decide
    rw [e, Nat.and_pow_two_sub_one_eq_mod]
    omega

/-! ## Lemmas: the XOR loop -/

theorem toU8_xor_val (a b : u8) : (toU8 (a.val ^^^ b.val)).val = a.val ^^^ b.val :=
  Nat.mod_eq_of_lt (Nat.xor_lt_two_pow (n := 8) a.isLt b.isLt)

/-- The recurrence of the XOR loop. -/
theorem obfuscate_step (b : List u8) (h : b.length = 10) :
    ∃ o : List u8, obfuscate b = some o ∧ o.length = 10 ∧
      (o.getD 9 0).val = (b.getD 9 0).val ^^^ 0xC3 ∧
      (∀ i, i < 9 → (o.getD i 0).val = (b.getD i 0).val ^^^ (o.getD (i + 1) 0).val) := by
  obtain ⟨b0, b1, b2, b3, b4, b5, b6, b7, b8, b9, rfl⟩ := list10 b h
  refine ⟨_, obfuscate10 b0 b1 b2 b3 b4 b5 b6 b7 b8 b9, rfl, ?_, ?_⟩
  · exact toU8_xor_val b9 (toU8 0xC3)
  · intro i hi
    interval_cases i <;> exact toU8_xor_val _ _

theorem shiftLeft8_xor (a b : Nat) (hb : b < 256) : (a <<< 8) ^^^ b = a * 256 + b := by
  apply Nat.eq_of_testBit_eq
  intro j
  have e : a * 256 + b = 2 ^ 8 * a + b := by omega
  rw [e, Nat.testBit_mul_pow_two_add a (show b < 2 ^ 8 from hb), Nat.testBit_xor,
    Nat.testBit_shiftLeft]
  by_cases hj : j < 8
  · have : ¬ j ≥ 8 := by omega
    simp [hj, this]
  · have h8 : j ≥ 8 := by omega
    have : b < 2 ^ j :=
      lt_of_lt_of_le (show b < 2 ^ 8 from hb) (Nat.pow_le_pow_right (by decide) h8)
    simp [hj, h8, Nat.testBit_lt_two_pow this]

/-! ## Lemmas: dependence on the encoded values -/

theorem mem_of_GetCourseId_eq (c1 c2 : Int) (h : GetCourseId c1 = GetCourseId c2)
    (h1 : c1 ∈ courseIdTable) : c2 ∈ courseIdTable := by
  by_contra h2
  rw [GetCourseId_eq, GetCourseId_eq, if_pos h1, if_neg h2] at h
  have := Option.some.inj h
  omega

theorem packCode_congr (s1 s2 : RaceStats) (courseId : Int)
    (ht : totalMs s1 = totalMs s2) (hk : kartCode s1 = kartCode s2)
    (h0 : s1.playerName 0 = s2.playerName 0) (h1 : s1.playerName 1 = s2.playerName 1) :
    packCode s1 courseId = packCode s2 courseId := by
  rw [packCode_eq, packCode_eq, totalTime_eq, totalTime_eq, kartCharacter_eq, kartCharacter_eq,
    ht, hk, h0, h1]

theorem codeOf_accept (code : List u8) (output : Nat → Char) :
    codeOf (some (1, fun j => if j < 16 then letterTable.getD (groupValue code j) 'S'
      else output j))
      = some (1, (List.range 16).map (fun j => letterTable.getD (groupValue code j) 'S')) := by
  unfold codeOf
  simp only [Option.map_some']
  congr 2

/-- The encoder run on two inputs that agree on the five encoded values. -/
theorem encoder_congr (o1 o2 : Nat → Char) (s1 s2 : RaceStats) (c1 c2 : Int)
    (ht : totalMs s1 = totalMs s2) (hc : GetCourseId c1 = GetCourseId c2)
    (hk : kartCode s1 = kartCode s2)
    (h0 : s1.playerName 0 = s2.playerName 0) (h1 : s1.playerName 1 = s2.playerName 1) :
    (¬ Accepted s1 c1 ∧ CalculateTimeTrialCode o1 s1 c1 = some (0, o1) ∧
      CalculateTimeTrialCode o2 s2 c2 = some (0, o2)) ∨
    (Accepted s1 c1 ∧ ∃ code : List u8,
      CalculateTimeTrialCode o1 s1 c1 =
        some (1, fun j => if j < 16 then letterTable.getD (groupValue code j) 'S' else o1 j) ∧
      CalculateTimeTrialCode o2 s2 c2 =
        some (1, fun j => if j < 16 then letterTable.getD (groupValue code j) 'S'
          else o2 j)) := by
  by_cases hacc : Accepted s1 c1
  · right
    have hacc2 : Accepted s2 c2 :=
      ⟨ht ▸ hacc.1, mem_of_GetCourseId_eq c1 c2 hc hacc.2.1, hk ▸ hacc.2.2⟩
    obtain ⟨n1, p1, m1, code1, _, _, hg1, hp1, _, hm1, _, hb1, _, hr1⟩ :=
      CalculateTimeTrialCode_accept o1 s1 c1 hacc
    obtain ⟨n2, p2, m2, code2, _, _, hg2, hp2, _, hm2, _, hb2, _, hr2⟩ :=
      CalculateTimeTrialCode_accept o2 s2 c2 hacc2
    rw [hc, hg2] at hg1
    have hn : (n2 : Int) = n1 := Option.some.inj hg1
    rw [hn, ← packCode_congr s1 s2 _ ht hk h0 h1, hp1] at hp2
    cases (Option.some.inj hp2)
    rw [hm1] at hm2
    cases (Option.some.inj hm2)
    rw [hb1] at hb2
    cases (Option.some.inj hb2)
    exact ⟨hacc, code1, hr1, hr2⟩
  · left
    have hacc2 : ¬ Accepted s2 c2 := fun h2 =>
      hacc ⟨ht ▸ h2.1, mem_of_GetCourseId_eq c2 c1 hc.symm h2.2.1, hk ▸ h2.2.2⟩
    exact ⟨hacc, CalculateTimeTrialCode_reject o1 s1 c1 hacc,
      CalculateTimeTrialCode_reject o2 s2 c2 hacc2⟩

/-! ## Lemmas: inverting the XOR loop -/

/-- The recurrence of the XOR loop on ten named bytes. -/
theorem obfuscate10_vals (b0 b1 b2 b3 b4 b5 b6 b7 b8 b9 o0 o1 o2 o3 o4 o5 o6 o7 o8 o9 : u8)
    (h : obfuscate [b0, b1, b2, b3, b4, b5, b6, b7, b8, b9]
      = some [o0, o1, o2, o3, o4, o5, o6, o7, o8, o9]) :
    o9.val = b9.val ^^^ 0xC3 ∧ o8.val = b8.val ^^^ o9.val ∧ o7.val = b7.val ^^^ o8.val ∧
    o6.val = b6.val ^^^ o7.val ∧ o5.val = b5.val ^^^ o6.val ∧ o4.val = b4.val ^^^ o5.val ∧
    o3.val = b3.val ^^^ o4.val ∧ o2.val = b2.val ^^^ o3.val ∧ o1.val = b1.val ^^^ o2.val ∧
    o0.val = b0.val ^^^ o1.val := by
  obtain ⟨o, ho, _, h9, hstep⟩ := obfuscate_step [b0, b1, b2, b3, b4, b5, b6, b7, b8, b9] rfl
  rw [h] at ho
  cases (Option.some.inj ho)
  exact ⟨h9, hstep 8 (by omega), hstep 7 (by omega), hstep 6 (by omega), hstep 5 (by omega),
    hstep 4 (by omega), hstep 3 (by omega), hstep 2 (by omega), hstep 1 (by omega),
    hstep 0 (by omega)⟩

/-- Ten bytes that satisfy the recurrence are the image of the XOR loop. -/
theorem obfuscate10_of_vals (b0 b1 b2 b3 b4 b5 b6 b7 b8 b9 o0 o1 o2 o3 o4 o5 o6 o7 o8 o9 : u8)
    (h9 : o9.val = b9.val ^^^ 0xC3) (h8 : o8.val = b8.val ^^^ o9.val)
    (h7 : o7.val = b7.val ^^^ o8.val) (h6 : o6.val = b6.val ^^^ o7.val)
    (h5 : o5.val = b5.val ^^^ o6.val) (h4 : o4.val = b4.val ^^^ o5.val)
    (h3 : o3.val = b3.val ^^^ o4.val) (h2 : o2.val = b2.val ^^^ o3.val)
    (h1 : o1.val = b1.val ^^^ o2.val) (h0 : o0.val = b0.val ^^^ o1.val) :
    obfuscate [b0, b1, b2, b3, b4, b5, b6, b7, b8, b9]
      = some [o0, o1, o2, o3, o4, o5, o6, o7, o8, o9] := by
  obtain ⟨p, hp, hpl⟩ := obfuscate_length [b0, b1, b2, b3, b4, b5, b6, b7, b8, b9] rfl
  obtain ⟨p0, p1, p2, p3, p4, p5, p6, p7, p8, p9, rfl⟩ := list10 p hpl
  obtain ⟨k9, k8, k7, k6, k5, k4, k3, k2, k1, k0⟩ := obfuscate10_vals _ _ _ _ _ _ _ _ _ _
    _ _ _ _ _ _ _ _ _ _ hp
  have e9 : p9 = o9 := Fin.ext (by rw [k9, h9])
  subst e9
  have e8 : p8 = o8 := Fin.ext (by rw [k8, h8])
  subst e8
  have e7 : p7 = o7 := Fin.ext (by rw [k7, h7])
  subst e7
  have e6 : p6 = o6 := Fin.ext (by rw [k6, h6])
  subst e6
  have e5 : p5 = o5 := Fin.ext (by rw [k5, h5])
  subst e5
  have e4 : p4 = o4 := Fin.ext (by rw [k4, h4])
  subst e4
  have e3 : p3 = o3 := Fin.ext (by rw [k3, h3])
  subst e3
  have e2 : p2 = o2 := Fin.ext (by rw [k2, h2])
  subst e2
  have e1 : p1 = o1 := Fin.ext (by rw [k1, h1])
  subst e1
  have e0 : p0 = o0 := Fin.ext (by rw [k0, h0])
  subst e0
  exact hp

/-- The inverse direction of the XOR loop. -/
theorem obfuscate_inverse (b o : List u8) (hb : b.length = 10) (h : obfuscate b = some o) :
    o.length = 10 ∧ (b.getD 9 0).val = (o.getD 9 0).val ^^^ 0xC3 ∧
    ∀ i, i < 9 → (b.getD i 0).val = (o.getD i 0).val ^^^ (o.getD (i + 1) 0).val := by
  obtain ⟨o2, ho, hl, h9, hstep⟩ := obfuscate_step b hb
  rw [h] at ho
  cases (Option.some.inj ho)
  refine ⟨hl, ?_, ?_⟩
  · rw [h9, Nat.xor_cancel_right]
  · intro i hi
    rw [hstep i hi, Nat.xor_cancel_right]

theorem obfuscate_injective (b c : List u8) (hb : b.length = 10) (hc : c.length = 10)
    (h : obfuscate b = obfuscate c) : b = c := by
  obtain ⟨o, ho, _⟩ := obfuscate_length b hb
  obtain ⟨_, b9, bs⟩ := obfuscate_inverse b o hb ho
  obtain ⟨_, c9, cs⟩ := obfuscate_inverse c o hc (h ▸ ho)
  apply List.ext_getElem (by rw [hb, hc])
  intro i h1 h2
  have hi : i < 10 := by omega
  have key : (b.getD i 0).val = (c.getD i 0).val := by
    by_cases h9 : i = 9
    · subst h9; rw [b9, c9]
    · rw [bs i (by omega), cs i (by omega)]
  rw [List.getD_eq_getElem _ _ h1, List.getD_eq_getElem _ _ h2] at key
  exact Fin.ext key

theorem xor_xor_cancel_right (a b c : Nat) : (a ^^^ c) ^^^ (b ^^^ c) = a ^^^ b := by
  rw [Nat.xor_comm b c, ← Nat.xor_assoc, Nat.xor_cancel_right]

theorem xor_xor_cancel_left (a b c : Nat) : (c ^^^ a) ^^^ (c ^^^ b) = a ^^^ b := by
  rw [Nat.xor_comm c a, Nat.xor_comm c b, xor_xor_cancel_right]

/-! ## Lemmas: the checksum embedding at any length -/

theorem storeAt_eq (m : List u8) (n k : Nat) (v : u8) (h : 4 ≤ n + k) :
    storeAt m ((n : Int) - 4) k v = store m (n + k - 4) v := by
  unfold storeAt
  have h0 : (0 : Int) ≤ (n : Int) - 4 + (k : Int) := by omega
  have h1 : ((n : Int) - 4 + (k : Int)).toNat = n + k - 4 := by omega
  rw [if_pos h0, h1]

theorem store_append_fst (d : List u8) (x y v : u8) :
    store (d ++ [x, y]) d.length v = some (d ++ [v, y]) := by
  unfold store
  rw [if_pos (by simp)]
  simp

theorem store_append_snd (d : List u8) (x y v : u8) :
    store (d ++ [x, y]) (d.length + 1) v = some (d ++ [x, v]) := by
  unfold store
  rw [if_pos (by simp)]
  simp [List.set_append]

/-- The checksum embedding in mode `flag = 1` on a buffer of any length that fits an `int`:
the last two bytes become the CRC-16/XMODEM of the bytes before them. -/
theorem checksum_append_two (tick : Nat) (d : List u8) (x y : u8)
    (hint : d.length + 2 < 2 ^ 31) (h4 : 4 ≤ d.length + 2) :
    CalculateCodeChecksum tick (d ++ [x, y]) ((d.length + 2 : Nat) : Int) 1
      = some (d ++ [toU8 (crc16Xmodem d >>> 8), toU8 (crc16Xmodem d &&& 0xff)]) := by
  have hlen : ((((d.length + 2 : Nat) : Int)) % 2 ^ 32).toNat = (d ++ [0, 0] : List u8).length := by
    rw [List.length_append]
    simp only [List.length_cons, List.length_nil]
    omega
  have hcrc : (d ++ [(0 : u8), 0]).foldl crcByte 0 = crc16Xmodem d := by
    rw [crc_fold_append_two]
    simp
  have e2 : d.length + 2 + 2 - 4 = d.length := by omega
  have e3 : d.length + 2 + 3 - 4 = d.length + 1 := by omega
  unfold CalculateCodeChecksum
  simp only [show ((1 : Int) = 0) = False from by decide, if_false, Option.bind_eq_bind,
    Option.some_bind, storeAt_eq _ _ _ _ (show 4 ≤ d.length + 2 + 2 by omega),
    storeAt_eq _ _ _ _ (show 4 ≤ d.length + 2 + 3 by omega), e2, e3, store_append_fst,
    store_append_snd]
  have z : toU8 0 = (0 : u8) := rfl
  rw [z, hlen, CalculateCRC16CCITT_eq, hcrc, Option.some_bind]

theorem split_last_two (data : List u8) (h : 2 ≤ data.length) :
    ∃ (d : List u8) (x y : u8), data = d ++ [x, y] ∧ d = data.take (data.length - 2) := by
  have hdrop : (data.drop (data.length - 2)).length = 2 := by
    rw [List.length_drop]; omega
  obtain ⟨x, y, hxy⟩ := List.length_eq_two.1 hdrop
  refine ⟨data.take (data.length - 2), x, y, ?_, rfl⟩
  rw [← hxy, List.take_append_drop]

theorem crc16Xmodem_lt (d : List u8) : crc16Xmodem d < 65536 := by
  rw [crc16Xmodem_eq, Function.iterate_succ_apply']
  exact xmodemShift_lt _

theorem crc_bytes_join (c : Nat) (h : c < 65536) :
    (toU8 (c >>> 8)).val * 256 + (toU8 (c &&& 0xff)).val = c := by
  have e : (0xff : Nat) = 2 ^ 8 - 1 := by decide
  rw [toU8_val, toU8_val, e, Nat.and_pow_two_sub_one_eq_mod, Nat.shiftRight_eq_div_pow]
  omega

theorem checksum10_legacy (tick : Nat) (b0 b1 b2 b3 b4 b5 b6 b7 b8 b9 : u8) :
    CalculateCodeChecksum tick [b0, b1, b2, b3, b4, b5, b6, b7, b8, b9] 10 0 =
      some [b0, b1, b2, b3, b4, b5, toU8 ((tick >>> 16) &&& 0xff), toU8 (tick &&& 0xff),
        toU8 ((List.foldl crcByte 0 [b0, b1, b2, b3, b4, b5, toU8 0, toU8 0, toU8 0, toU8 0])
          >>> 8),
        toU8 ((List.foldl crcByte 0 [b0, b1, b2, b3, b4, b5, toU8 0, toU8 0, toU8 0, toU8 0])
          &&& 0xff)] := by
  rfl

/-! ## Lemmas: injectivity of the stages -/

theorem letterTable_injective (v w : Nat) (hv : v < 32) (hw : w < 32)
    (h : letterTable.getD v 'S' = letterTable.getD w 'S') : v = w := by
  have key : ∀ a b : Fin 32,
      letterTable.getD a.val 'S' = letterTable.getD b.val 'S' → a = b := by decide!
  exact congrArg Fin.val (key ⟨v, hv⟩ ⟨w, hw⟩ h)

theorem beValue10_lt (code : List u8) (h : code.length = 10) : beValue code < 2 ^ 80 := by
  obtain ⟨b0, b1, b2, b3, b4, b5, b6, b7, b8, b9, rfl⟩ := list10 code h
  have h0 := b0.isLt; have h1 := b1.isLt; have h2 := b2.isLt; have h3 := b3.isLt
  have h4 := b4.isLt; have h5 := b5.isLt; have h6 := b6.isLt; have h7 := b7.isLt
  have h8 := b8.isLt; have h9 := b9.isLt
  simp only [beValue, List.foldl]
  omega

/-- A number below `2 ^ 80` is determined by its sixteen 5-bit groups. -/
theorem eq_of_groups (N M : Nat) (hN : N < 2 ^ 80) (hM : M < 2 ^ 80)
    (h : ∀ g, g < 16 → (N >>> (75 - 5 * g)) % 32 = (M >>> (75 - 5 * g)) % 32) : N = M := by
  have key : ∀ k, k ≤ 16 → N % 32 ^ k = M % 32 ^ k := by
    intro k
    induction k with
    | zero => intro _; rw [pow_zero, Nat.mod_one, Nat.mod_one]
    | succ k ih =>
      intro hk
      have hg := h (15 - k) (by omega)
      have e : 75 - 5 * (15 - k) = 5 * k := by omega
      have e32 : (2 : Nat) ^ 5 = 32 := by decide
      rw [e, Nat.shiftRight_eq_div_pow, Nat.shiftRight_eq_div_pow, pow_mul, e32] at hg
      rw [Nat.mod_pow_succ, Nat.mod_pow_succ, ih (by omega), hg]
  have e80 : (2 : Nat) ^ 80 = 32 ^ 16 := by norm_num
  rw [e80] at hN hM
  have := key 16 (le_refl _)
  rwa [Nat.mod_eq_of_lt hN, Nat.mod_eq_of_lt hM] at this

/-- Buffers of equal length with the same big-endian value are equal. -/
theorem beValue_injective (l : List u8) :
    ∀ m : List u8, l.length = m.length → beValue l = beValue m → l = m := by
  induction l using List.reverseRecOn with
  | nil =>
    intro m hlen _
    exact (List.length_eq_zero.1 hlen.symm).symm
  | append_singleton l x ih =>
    intro m hlen hval
    rcases List.eq_nil_or_concat m with rfl | ⟨m2, y, rfl⟩
    · simp at hlen
    · rw [List.concat_eq_append] at hlen hval ⊢
      rw [beValue_append_singleton, beValue_append_singleton] at hval
      have hx := x.isLt
      have hy := y.isLt
      have h1 : x = y := Fin.ext (by omega)
      have h2 : beValue l = beValue m2 := by omega
      have h3 : l.length = m2.length := by simpa using hlen
      rw [ih m2 h3 h2, h1]
theorem toU8_inj_mod (a b : Nat) (h : toU8 a = toU8 b) : a % 256 = b % 256 :=
  congrArg Fin.val h

theorem u32_bytes_injective (W V : Nat) (hW : W < 2 ^ 32) (hV : V < 2 ^ 32)
    (h0 : toU8 W = toU8 V) (h1 : toU8 (W >>> 8) = toU8 (V >>> 8))
    (h2 : toU8 (W >>> 16) = toU8 (V >>> 16)) (h3 : toU8 (W >>> 24) = toU8 (V >>> 24)) :
    W = V := by
  have k0 := toU8_inj_mod _ _ h0
  have k1 := toU8_inj_mod _ _ h1
  have k2 := toU8_inj_mod _ _ h2
  have k3 := toU8_inj_mod _ _ h3
  simp only [Nat.shiftRight_eq_div_pow, Nat.reducePow] at k1 k2 k3
  omega

theorem u16_bytes_injective (a b : u16) (h0 : toU8 a.val = toU8 b.val)
    (h1 : toU8 (a.val >>> 8) = toU8 (b.val >>> 8)) : a = b := by
  have k0 := toU8_inj_mod _ _ h0
  have k1 := toU8_inj_mod _ _ h1
  have ha := a.isLt
  have hb := b.isLt
  simp only [Nat.shiftRight_eq_div_pow, Nat.reducePow] at k1
  exact Fin.ext (by omega)

/-- The code of an accepted call is the sixteen symbols of the groups of the obfuscated
buffer. -/
theorem codeOf_run (output : Nat → Char) (stats : RaceStats) (course : Int) (cs : List Char)
    (h : codeOf (CalculateTimeTrialCode output stats course) = some (1, cs)) :
    ∃ (n : Nat) (packed summed code : List u8),
      totalMs stats < 240000 ∧ n < 32 ∧ kartCode stats < 512 ∧
      courseIdTable[n]? = some course ∧
      packCode stats n = some packed ∧ packed.length = 10 ∧
      CalculateCodeChecksum OS_GetTick packed 10 1 = some summed ∧ summed.length = 10 ∧
      obfuscate summed = some code ∧ code.length = 10 ∧
      cs = (List.range 16).map (fun j => letterTable.getD (groupValue code j) 'S') := by
  have hone : (CalculateTimeTrialCode output stats course).map Prod.fst = some 1 := by
    unfold codeOf at h
    cases hr : CalculateTimeTrialCode output stats course with
    | none => rw [hr] at h; simp at h
    | some r =>
      rw [hr] at h
      simp only [Option.map_some', Option.some.injEq, Prod.mk.injEq] at h
      simp [h.1]
  have hacc := (returns_one_iff output stats course).1 hone
  obtain ⟨n, packed, summed, code, hn, htab, _, hpack, hpl, hsum, hsl, hobf, hcl, hrun⟩ :=
    CalculateTimeTrialCode_accept output stats course hacc
  rw [hrun, codeOf_accept] at h
  have hcs := (Prod.mk.inj (Option.some.inj h)).2
  exact ⟨n, packed, summed, code, hacc.1, hn, hacc.2.2, htab, hpack, hpl, hsum, hsl, hobf, hcl,
    hcs.symm⟩

/-! ## Theorems -/

/-- C1: for every record and course id, `CalculateTimeTrialCode` returns 1 exactly when the
total time `msecs + 1000 * secs + 60000 * mins` is below 240000, the course id occurs in
`courseIdTable` and `character * 37 + kart` is below 512, and it returns 0 otherwise. A total
of 239999 ms is accepted and one of 240000 ms rejected; character 13 with kart 30 is accepted
and character 13 with kart 31 rejected. -/
theorem CalculateTimeTrialCode_return_value (output : Nat → Char) (stats : RaceStats)
    (course : Int) :
    ((CalculateTimeTrialCode output stats course).map Prod.fst = some 1 ↔
      (stats.msecs.val + 1000 * stats.secs.val + 60000 * stats.mins.val < 240000 ∧
        course ∈ courseIdTable ∧ stats.character.val * 37 + stats.kart.val < 512)) ∧
    ((CalculateTimeTrialCode output stats course).map Prod.fst = some 0 ↔
      ¬ (stats.msecs.val + 1000 * stats.secs.val + 60000 * stats.mins.val < 240000 ∧
        course ∈ courseIdTable ∧ stats.character.val * 37 + stats.kart.val < 512)) ∧
    (totalMs stats = 239999 → course ∈ courseIdTable → kartCode stats < 512 →
      (CalculateTimeTrialCode output stats course).map Prod.fst = some 1) ∧
    (totalMs stats = 240000 →
      (CalculateTimeTrialCode output stats course).map Prod.fst = some 0) ∧
    (stats.character = 13 → stats.kart = 30 → totalMs stats < 240000 →
      course ∈ courseIdTable →
      (CalculateTimeTrialCode output stats course).map Prod.fst = some 1) ∧
    (stats.character = 13 → stats.kart = 31 →
      (CalculateTimeTrialCode output stats course).map Prod.fst = some 0) := by
  have hzero : ∀ h : ¬ Accepted stats course,
      (CalculateTimeTrialCode output stats course).map Prod.fst = some 0 := by
    intro h
    rw [CalculateTimeTrialCode_reject output stats course h]; rfl
  have hone := returns_one_iff output stats course
  refine ⟨hone, ?_, ?_, ?_, ?_, ?_⟩
  · constructor
    · intro h0 hacc
      rw [hone.2 hacc] at h0
      simp at h0
    · intro hn
      exact hzero hn
  · intro ht hc hk
    exact hone.2 ⟨by omega, hc, hk⟩
  · intro ht
    exact hzero (fun hacc => by have := hacc.1; omega)
  · intro hch hk ht hc
    refine hone.2 ⟨ht, hc, ?_⟩
    unfold kartCode; rw [hch, hk]; decide
  · intro hch hk
    refine hzero (fun hacc => ?_)
    have := hacc.2.2
    unfold kartCode at this; rw [hch, hk] at this
    exact absurd this (by decide)

/-- C2: whenever `CalculateTimeTrialCode` returns 1, exactly the output positions 0..15 are
written (the later positions keep their contents and the first 16 do not depend on the old
contents), every written character is one of the 32 symbols of
`S7LCX3JZE8FG4HBKWN52YPA6RTU9VMDQ`, the index into `letterTable` is below 32 in each of the
16 iterations, and every byte index `bitOffset / 8` into the 10-byte code is below 10. -/
theorem CalculateTimeTrialCode_output_symbols (output : Nat → Char) (stats : RaceStats)
    (course : Int)
    (h : (CalculateTimeTrialCode output stats course).map Prod.fst = some 1) :
    ∃ (out : Nat → Char) (code : List u8),
      CalculateTimeTrialCode output stats course = some (1, out) ∧
      (∀ j, 16 ≤ j → out j = output j) ∧
      (∀ j, j < 16 → out j ∈ "S7LCX3JZE8FG4HBKWN52YPA6RTU9VMDQ".toList) ∧
      (∀ output2 : Nat → Char, ∃ out2,
        CalculateTimeTrialCode output2 stats course = some (1, out2) ∧
        ∀ j, j < 16 → out2 j = out j) ∧
      (∃ courseId packed summed, GetCourseId course = some courseId ∧
        packCode stats courseId = some packed ∧
        CalculateCodeChecksum OS_GetTick packed 10 1 = some summed ∧
        obfuscate summed = some code) ∧
      code.length = 10 ∧
      ∀ g, g < 16 → ∃ encByte, encBits code (5 * g) 5 0 0 = some encByte ∧
        encByte >>> 1 < 32 ∧ letterTable[encByte >>> 1]? = some (out g) ∧
        ∀ bit, bit < 5 → (5 * g + bit) % 2 ^ 32 / 8 < code.length := by
  have hacc := (returns_one_iff output stats course).1 h
  obtain ⟨n, packed, summed, code, _, _, hget, hpack, _, hsum, _, hobf, hcl, hrun⟩ :=
    CalculateTimeTrialCode_accept output stats course hacc
  refine ⟨_, code, hrun, ?_, ?_, ?_, ⟨n, packed, summed, hget, hpack, hsum, hobf⟩, hcl, ?_⟩
  · intro j hj
    simp only [if_neg (show ¬ j < 16 by omega)]
  · intro j hj
    simp only [if_pos hj]
    rw [← letterTable_symbols]
    exact (letterTable_getElem? _ (groupValue_lt code j)).2
  · intro output2
    obtain ⟨n2, packed2, summed2, code2, _, _, hget2, hpack2, _, hsum2, _, hobf2, _, hrun2⟩ :=
      CalculateTimeTrialCode_accept output2 stats course hacc
    rw [hget] at hget2
    cases (Option.some.inj hget2)
    rw [hpack] at hpack2
    cases (Option.some.inj hpack2)
    rw [hsum] at hsum2
    cases (Option.some.inj hsum2)
    rw [hobf] at hobf2
    cases (Option.some.inj hobf2)
    refine ⟨_, hrun2, ?_⟩
    intro j hj
    simp only [if_pos hj]
  · intro g hg
    have h2 : (2 * groupValue code g) >>> 1 = groupValue code g := by
      rw [Nat.shiftRight_eq_div_pow]; omega
    refine ⟨_, encBits_group code hcl g hg, ?_, ?_, ?_⟩
    · rw [h2]; exact groupValue_lt code g
    · rw [h2]
      simp only [if_pos hg]
      exact (letterTable_getElem? _ (groupValue_lt code g)).1
    · intro bit hb
      rw [hcl, Nat.mod_eq_of_lt (show 5 * g + bit < 2 ^ 32 by omega)]
      omega

/-- Witness of C2: the record of `main` on course 22. -/
theorem CalculateTimeTrialCode_output_symbols_witness :
    (CalculateTimeTrialCode (fun _ => 'x') (mainStats (fun _ => 0) 0 (fun _ => 0)) 22).map
        Prod.fst = some 1 ∧
    ∃ out : Nat → Char,
      CalculateTimeTrialCode (fun _ => 'x') (mainStats (fun _ => 0) 0 (fun _ => 0)) 22
        = some (1, out) ∧
      (∀ j, 16 ≤ j → out j = 'x') ∧
      (∀ j, j < 16 → out j ∈ "S7LCX3JZE8FG4HBKWN52YPA6RTU9VMDQ".toList) :=
  ⟨by decide!,
    match CalculateTimeTrialCode_output_symbols (fun _ => 'x')
      (mainStats (fun _ => 0) 0 (fun _ => 0)) 22 (by decide!) with
    | ⟨out, _, h1, h2, h3, _⟩ => ⟨out, h1, h2, h3⟩⟩

/-- C3: encoding the demonstration record of `main` (0:45.994, character 6, kart 34, name
`MK`) on raw course 22 returns 1; the checksum-bearing buffer is
`00 83 EA 2C 4D 00 4B 00 7B F2`, the obfuscated buffer is `09 09 8A 60 4C 01 01 4A 4A 31`,
and the code is `7XXRYRL4SXSYY5NN`, whatever the other fields of the record and the old
contents of the output buffer. -/
theorem main_code (rest : Fin 10 → u16) (isValid : u8) (padding : Fin 5 → u8)
    (output : Nat → Char) :
    GetCourseId 22 = some 1 ∧
    ((packCode (mainStats rest isValid padding) 1).bind
        (fun code => CalculateCodeChecksum OS_GetTick code 10 1)
      = some [0x00, 0x83, 0xEA, 0x2C, 0x4D, 0x00, 0x4B, 0x00, 0x7B, 0xF2]) ∧
    obfuscate [0x00, 0x83, 0xEA, 0x2C, 0x4D, 0x00, 0x4B, 0x00, 0x7B, 0xF2]
      = some [0x09, 0x09, 0x8A, 0x60, 0x4C, 0x01, 0x01, 0x4A, 0x4A, 0x31] ∧
    ∃ out : Nat → Char,
      CalculateTimeTrialCode output (mainStats rest isValid padding) 22 = some (1, out) ∧
      (List.range 16).map out = "7XXRYRL4SXSYY5NN".toList := by
  have e1 : totalTime (mainStats rest isValid padding) = 45994 := by
    simp only [totalTime, mainStats]; decide
  have e2 : kartCharacter (mainStats rest isValid padding) = 256 := by
    simp only [kartCharacter, mainStats]; decide
  have e3 : (mainStats rest isValid padding).playerName 0 = 0x004D := rfl
  have e4 : (mainStats rest isValid padding).playerName 1 = 0x004B := rfl
  have hpk : packCode (mainStats rest isValid padding) 1
      = some [0x00, 0x83, 0xEA, 0x2C, 0x4D, 0x00, 0x4B, 0x00, 0x00, 0x00] := by
    rw [packCode_eq, e1, e2, e3, e4]
    decide!
  have hcs : CalculateCodeChecksum OS_GetTick
      [0x00, 0x83, 0xEA, 0x2C, 0x4D, 0x00, 0x4B, 0x00, 0x00, 0x00] 10 1
      = some [0x00, 0x83, 0xEA, 0x2C, 0x4D, 0x00, 0x4B, 0x00, 0x7B, 0xF2] := by decide!
  have h3 : obfuscate [0x00, 0x83, 0xEA, 0x2C, 0x4D, 0x00, 0x4B, 0x00, 0x7B, 0xF2]
      = some [0x09, 0x09, 0x8A, 0x60, 0x4C, 0x01, 0x01, 0x4A, 0x4A, 0x31] := by decide!
  have hacc : Accepted (mainStats rest isValid padding) 22 := by
    refine ⟨?_, by decide, ?_⟩
    · rw [← totalTime_eq, e1]; decide
    · rw [← kartCharacter_eq, e2]; decide
  refine ⟨rfl, by rw [hpk]; exact hcs, h3, ?_⟩
  obtain ⟨n, packed, summed, code, _, _, hget, hpack, _, hsum, _, hobf, _, hrun⟩ :=
    CalculateTimeTrialCode_accept output (mainStats rest isValid padding) 22 hacc
  have hn : (n : Int) = 1 := by
    have : GetCourseId 22 = some 1 := rfl
    rw [this] at hget
    exact (Option.some.inj hget).symm
  rw [hn, hpk] at hpack
  cases (Option.some.inj hpack)
  rw [hcs] at hsum
  cases (Option.some.inj hsum)
  rw [h3] at hobf
  cases (Option.some.inj hobf)
  refine ⟨_, hrun, ?_⟩
  rw [List.map_congr_left (g := fun j =>
    letterTable.getD (groupValue [0x09, 0x09, 0x8A, 0x60, 0x4C, 0x01, 0x01, 0x4A, 0x4A, 0x31] j)
      'S') (fun j hj => if_pos (List.mem_range.1 hj))]
  decide!

/-- C4: for every accepted record, the buffer handed to `CalculateCodeChecksum` holds in bytes
0..3 the word `(totalMs << 14) | ((ordinal mod 32) << 9) | ((character * 37 + kart) mod 512)`
least-significant byte first, in bytes 4..7 the code units `playerName[0]` and `playerName[1]`
(low byte, then high byte, of each), and zero in bytes 8..9. -/
theorem packCode_layout (output : Nat → Char) (stats : RaceStats) (course : Int)
    (h : (CalculateTimeTrialCode output stats course).map Prod.fst = some 1) :
    ∃ (ordinal : Nat) (code : List u8),
      GetCourseId course = some (ordinal : Int) ∧
      packCode stats (ordinal : Int) = some code ∧
      (totalMs stats <<< 14) ||| ((ordinal % 32) <<< 9) ||| (kartCode stats % 512) < 2 ^ 32 ∧
      code.map Fin.val =
        [((totalMs stats <<< 14) ||| ((ordinal % 32) <<< 9) ||| (kartCode stats % 512)) % 256,
         (((totalMs stats <<< 14) ||| ((ordinal % 32) <<< 9) ||| (kartCode stats % 512)) >>> 8)
           % 256,
         (((totalMs stats <<< 14) ||| ((ordinal % 32) <<< 9) ||| (kartCode stats % 512)) >>> 16)
           % 256,
         ((totalMs stats <<< 14) ||| ((ordinal % 32) <<< 9) ||| (kartCode stats % 512)) >>> 24,
         (stats.playerName 0).val % 256, (stats.playerName 0).val / 256,
         (stats.playerName 1).val % 256, (stats.playerName 1).val / 256,
         0, 0] := by
  obtain ⟨ht, hc, hk⟩ := (returns_one_iff output stats course).1 h
  obtain ⟨n, hn, _, hget⟩ := GetCourseId_mem course hc
  obtain ⟨hw, hsum⟩ := packWord_eq (totalMs stats) n (kartCode stats) ht hn hk
  have hn32 : n % 32 = n := Nat.mod_eq_of_lt hn
  have hk512 : kartCode stats % 512 = kartCode stats := Nat.mod_eq_of_lt hk
  have hlt : (totalMs stats <<< 14) ||| (n <<< 9) ||| kartCode stats < 2 ^ 32 := by
    rw [hsum]; omega
  have h0 := (stats.playerName 0).isLt
  have h1 := (stats.playerName 1).isLt
  refine ⟨n, _, hget, packCode_eq stats n, by rw [hn32, hk512]; exact hlt, ?_⟩
  rw [totalTime_eq, kartCharacter_eq, hw, hn32, hk512]
  simp only [List.map_cons, List.map_nil, toU8_val, Nat.shiftRight_eq_div_pow]
  generalize (totalMs stats <<< 14) ||| (n <<< 9) ||| kartCode stats = W at hlt
  have e1 : W / 2 ^ 24 % 256 = W / 2 ^ 24 := by omega
  have e2 : (stats.playerName 0).val / 2 ^ 8 % 256 = (stats.playerName 0).val / 256 := by omega
  have e3 : (stats.playerName 1).val / 2 ^ 8 % 256 = (stats.playerName 1).val / 256 := by omega
  rw [e1, e2, e3]

/-- Witness of C4: the record of `main` on course 22. -/
theorem packCode_layout_witness :
    (CalculateTimeTrialCode (fun _ => 'x') (mainStats (fun _ => 0) 0 (fun _ => 0)) 22).map
        Prod.fst = some 1 ∧
    ∃ (ordinal : Nat) (code : List u8), GetCourseId 22 = some (ordinal : Int) ∧
      packCode (mainStats (fun _ => 0) 0 (fun _ => 0)) (ordinal : Int) = some code :=
  ⟨by decide!,
    match packCode_layout (fun _ => 'x') (mainStats (fun _ => 0) 0 (fun _ => 0)) 22
      (by decide!) with
    | ⟨n, code, h1, h2, _⟩ => ⟨n, code, h1, h2⟩⟩

/-- C5: for every accepted record, `CalculateCodeChecksum(code, 10, 1)` leaves bytes 0..7
unchanged and stores in byte 8 the high byte and in byte 9 the low byte of
`CalculateCRC16CCITT` over the 10-byte buffer with bytes 8..9 zero; recomputing that CRC over
the resulting buffer with bytes 8..9 zeroed gives the two stored bytes. -/
theorem checksum_embedded (output : Nat → Char) (stats : RaceStats) (course : Int)
    (h : (CalculateTimeTrialCode output stats course).map Prod.fst = some 1) :
    ∃ (courseId : Int) (packed summed : List u8) (crc : Nat),
      GetCourseId course = some courseId ∧ packCode stats courseId = some packed ∧
      CalculateCodeChecksum OS_GetTick packed 10 1 = some summed ∧
      packed.length = 10 ∧ summed.length = 10 ∧
      summed.take 8 = packed.take 8 ∧
      CalculateCRC16CCITT ((packed.set 8 0).set 9 0) 10 = some crc ∧
      CalculateCRC16CCITT ((summed.set 8 0).set 9 0) 10 = some crc ∧
      crc < 65536 ∧
      (summed.getD 8 0).val = crc >>> 8 ∧ (summed.getD 9 0).val = crc &&& 0xff ∧
      crc = 256 * (summed.getD 8 0).val + (summed.getD 9 0).val := by
  have hacc := (returns_one_iff output stats course).1 h
  obtain ⟨n, packed, summed, code, _, _, hget, hpack, hpl, hsum, _, _, _, _⟩ :=
    CalculateTimeTrialCode_accept output stats course hacc
  obtain ⟨summed2, crc, hs2, hl, htake, hc1, hc2, hlt, h8, h9⟩ :=
    checksum10_spec OS_GetTick packed hpl
  rw [hsum] at hs2
  cases (Option.some.inj hs2)
  refine ⟨n, packed, summed, crc, hget, hpack, hsum, hpl, hl, htake, hc1, hc2, hlt, h8, h9, ?_⟩
  rw [h8, h9, Nat.shiftRight_eq_div_pow]
  have e : (0xff : Nat) = 2 ^ 8 - 1 := by decide
  rw [e, Nat.and_pow_two_sub_one_eq_mod]
  omega

/-- Witness of C5: the record of `main` on course 22. -/
theorem checksum_embedded_witness :
    (CalculateTimeTrialCode (fun _ => 'x') (mainStats (fun _ => 0) 0 (fun _ => 0)) 22).map
        Prod.fst = some 1 ∧
    ∃ (courseId : Int) (packed summed : List u8),
      GetCourseId 22 = some courseId ∧
      packCode (mainStats (fun _ => 0) 0 (fun _ => 0)) courseId = some packed ∧
      CalculateCodeChecksum OS_GetTick packed 10 1 = some summed ∧
      summed.take 8 = packed.take 8 :=
  ⟨by decide!,
    match checksum_embedded (fun _ => 'x') (mainStats (fun _ => 0) 0 (fun _ => 0)) 22
      (by decide!) with
    | ⟨n, packed, summed, _, h1, h2, h3, _, _, h4, _⟩ => ⟨n, packed, summed, h1, h2, h3, h4⟩⟩

/-- C6, as stated, fails on the check string: the CRC-16/XMODEM of the nine ASCII bytes
`123456789` is `0x31C3`, and `CalculateCRC16CCITT` returns `0xBEEF` on them. -/
theorem CalculateCRC16CCITT_checkString :
    CalculateCRC16CCITT checkString 9 = some 0xBEEF ∧ crc16Xmodem checkString = 0x31C3 ∧
    CalculateCRC16CCITT checkString checkString.length ≠ some (crc16Xmodem checkString) := by
  decide!

/-- C6, amended: for every byte sequence, `CalculateCRC16CCITT` returns a 16-bit value
computed with polynomial `0x1021`, MSB first, initial register 0, no final XOR and no
reflection, in which each input byte is XORed into the low byte of the register after the
register's eight shift-and-conditional-XOR steps. It is therefore the CRC-16/XMODEM of the
sequence without its last two bytes, XORed with those two bytes read as a big-endian 16-bit
value; on a sequence that ends in two zero bytes it is the CRC-16/XMODEM of the rest. Its
value on `123456789` is `0xBEEF`, on the empty sequence 0, on a single byte that byte. -/
theorem CalculateCRC16CCITT_register :
    (∀ data : List u8, ∃ crc,
      CalculateCRC16CCITT data data.length = some crc ∧ crc < 65536 ∧
      crc = data.foldl (fun reg ch => xmodemShift^[8] reg ^^^ ch.val) 0) ∧
    (∀ (d : List u8) (a b : u8),
      CalculateCRC16CCITT (d ++ [a, b]) (d.length + 2)
        = some (crc16Xmodem d ^^^ (a.val * 256 + b.val))) ∧
    (∀ d : List u8, CalculateCRC16CCITT (d ++ [0, 0]) (d.length + 2) = some (crc16Xmodem d)) ∧
    CalculateCRC16CCITT [] 0 = some 0 ∧
    (∀ a : u8, CalculateCRC16CCITT [a] 1 = some a.val) ∧
    CalculateCRC16CCITT checkString 9 = some 0xBEEF ∧ crc16Xmodem checkString = 0x31C3 := by
  have htwo : ∀ (d : List u8) (a b : u8),
      CalculateCRC16CCITT (d ++ [a, b]) (d.length + 2)
        = some (crc16Xmodem d ^^^ (a.val * 256 + b.val)) := by
    intro d a b
    have hl : (d ++ [a, b]).length = d.length + 2 := by simp
    rw [← hl, CalculateCRC16CCITT_eq, crc_fold_append_two, shiftLeft8_xor _ _ b.isLt]
  refine ⟨?_, htwo, ?_, rfl, ?_, by decide!, by decide!⟩
  · intro data
    refine ⟨_, CalculateCRC16CCITT_eq data, crc_fold_lt data 0 (by decide), ?_⟩
    congr 1
    funext reg ch
    exact crcByte_eq reg ch
  · intro d
    have := htwo d 0 0
    simpa using this
  · intro a
    have := CalculateCRC16CCITT_eq [a]
    rw [List.foldl_cons, List.foldl_nil, crcByte_eq, xmodemShift_iterate_zero,
      Nat.zero_xor] at this
    exact this

/-- C7: the obfuscation loop maps every 10-byte buffer `b` to the buffer `o` with
`o[9] = b[9] XOR 0xC3` and `o[i] = b[i] XOR o[i+1]` for `i` from 8 down to 0; equivalently
`o[i] = 0xC3 XOR b[i] XOR b[i+1] XOR ... XOR b[9]` for every `i` in 0..9. -/
theorem obfuscate_chain (b : List u8) (h : b.length = 10) :
    ∃ o : List u8, obfuscate b = some o ∧ o.length = 10 ∧
      (o.getD 9 0).val = (b.getD 9 0).val ^^^ 0xC3 ∧
      (∀ i, i < 9 → (o.getD i 0).val = (b.getD i 0).val ^^^ (o.getD (i + 1) 0).val) ∧
      (∀ i, i < 10 →
        (o.getD i 0).val = ((b.drop i).map Fin.val).foldl (fun x y => x ^^^ y) 0xC3) := by
  obtain ⟨o, ho, hl, h9, hstep⟩ := obfuscate_step b h
  refine ⟨o, ho, hl, h9, hstep, ?_⟩
  have c0 := hstep 0 (by omega)
  have c1 := hstep 1 (by omega)
  have c2 := hstep 2 (by omega)
  have c3 := hstep 3 (by omega)
  have c4 := hstep 4 (by omega)
  have c5 := hstep 5 (by omega)
  have c6 := hstep 6 (by omega)
  have c7 := hstep 7 (by omega)
  have c8 := hstep 8 (by omega)
  clear hstep ho
  obtain ⟨b0, b1, b2, b3, b4, b5, b6, b7, b8, b9, rfl⟩ := list10 b h
  obtain ⟨o0, o1, o2, o3, o4, o5, o6, o7, o8, o9, rfl⟩ := list10 o hl
  simp only [List.getD_cons_zero, List.getD_cons_succ] at h9 c0 c1 c2 c3 c4 c5 c6 c7 c8
  intro i hi
  interval_cases i <;>
    simp only [List.getD_cons_zero, List.getD_cons_succ, List.drop_succ_cons, List.drop_zero,
      List.map_cons, List.map_nil, List.foldl_cons, List.foldl_nil, h9, c0, c1, c2, c3, c4, c5,
      c6, c7, c8] <;>
    ac_rfl

/-- Witness of C7: the checksum-bearing buffer of the record of `main`. -/
theorem obfuscate_chain_witness :
    ∃ o : List u8,
      obfuscate [0x00, 0x83, 0xEA, 0x2C, 0x4D, 0x00, 0x4B, 0x00, 0x7B, 0xF2] = some o ∧
      (o.getD 9 0).val = 0xF2 ^^^ 0xC3 :=
  match obfuscate_chain [0x00, 0x83, 0xEA, 0x2C, 0x4D, 0x00, 0x4B, 0x00, 0x7B, 0xF2] rfl with
  | ⟨o, h1, _, h2, _⟩ => ⟨o, h1, h2⟩

/-- C8: for every 10-byte buffer and every `g` in 0..15, output character `g` is
`letterTable[v]`, where `v` is the 5-bit value made, most significant bit first, of bits
`5g .. 5g+4` of the buffer read as an 80-bit big-endian bitstream; equivalently, with `N` the
80-bit big-endian value of the buffer, `v = (N >> (75 - 5g)) mod 32`. -/
theorem base32_groups (code : List u8) (h : code.length = 10) (output : Nat → Char) :
    ∃ out : Nat → Char, base32 code output = some out ∧
      ∀ g, g < 16 →
        letterTable[groupValue code g]? = some (out g) ∧
        groupValue code g = (beValue code >>> (75 - 5 * g)) % 32 ∧
        groupValue code g =
          16 * streamBit code (5 * g) + 8 * streamBit code (5 * g + 1)
            + 4 * streamBit code (5 * g + 2) + 2 * streamBit code (5 * g + 3)
            + streamBit code (5 * g + 4) := by
  refine ⟨_, base32_eq code h output, ?_⟩
  intro g hg
  refine ⟨?_, rfl, ?_⟩
  · simp only [if_pos hg]
    exact (letterTable_getElem? _ (groupValue_lt code g)).1
  · rw [streamBit_eq code h _ (by omega), streamBit_eq code h _ (by omega),
      streamBit_eq code h _ (by omega), streamBit_eq code h _ (by omega),
      streamBit_eq code h _ (by omega), groupValue, Nat.shiftRight_eq_div_pow,
      window_bits (beValue code) (75 - 5 * g)]
    have e0 : 79 - 5 * g = 75 - 5 * g + 4 := by omega
    have e1 : 79 - (5 * g + 1) = 75 - 5 * g + 3 := by omega
    have e2 : 79 - (5 * g + 2) = 75 - 5 * g + 2 := by omega
    have e3 : 79 - (5 * g + 3) = 75 - 5 * g + 1 := by omega
    have e4 : 79 - (5 * g + 4) = 75 - 5 * g := by omega
    rw [e0, e1, e2, e3, e4]

/-- Witness of C8: the obfuscated buffer of the record of `main`. -/
theorem base32_groups_witness :
    ∃ out : Nat → Char,
      base32 [0x09, 0x09, 0x8A, 0x60, 0x4C, 0x01, 0x01, 0x4A, 0x4A, 0x31] (fun _ => 'x')
        = some out ∧
      ∀ g, g < 16 →
        letterTable[groupValue [0x09, 0x09, 0x8A, 0x60, 0x4C, 0x01, 0x01, 0x4A, 0x4A, 0x31] g]?
          = some (out g) :=
  match base32_groups [0x09, 0x09, 0x8A, 0x60, 0x4C, 0x01, 0x01, 0x4A, 0x4A, 0x31] rfl
    (fun _ => 'x') with
  | ⟨out, h1, h2⟩ => ⟨out, h1, fun g hg => (h2 g hg).1⟩

/-- C9: `GetCourseId` resolves a raw id to its position in the table: for every `i` in 0..31,
`GetCourseId(courseIdTable[i]) = i`, which is `cup * 4 + slot`; for every integer that is not
among the 32 entries the result is -1; so the result is always -1 or within 0..31. In
particular `GetCourseId(22) = 1` and `GetCourseId(0) = -1`, and course 0 is rejected by
`CalculateTimeTrialCode`. -/
theorem GetCourseId_position :
    courseIdTable.length = 32 ∧
    (∀ i : Fin 32, GetCourseId (courseIdTable.getD i.val 0) = some (i.val : Int)) ∧
    (∀ cup slot : Nat, cup < NUM_CUPS → slot < COURSES_PER_CUP →
      GetCourseId (courseIdTable.getD (cup * 4 + slot) 0) = some ((cup * 4 + slot : Nat) : Int)) ∧
    (∀ inId : Int, inId ∉ courseIdTable → GetCourseId inId = some (-1)) ∧
    (∀ inId : Int, ∃ r, GetCourseId inId = some r ∧ (r = -1 ∨ (0 ≤ r ∧ r ≤ 31))) ∧
    GetCourseId 22 = some 1 ∧ GetCourseId 0 = some (-1) ∧
    (∀ (output : Nat → Char) (stats : RaceStats),
      CalculateTimeTrialCode output stats 0 = some (0, output)) := by
  have hall : ∀ i : Fin 32, GetCourseId (courseIdTable.getD i.val 0) = some (i.val : Int) := by
    decide
  refine ⟨rfl, hall, ?_, GetCourseId_not_mem, ?_, rfl, rfl, ?_⟩
  · intro cup slot hc hs
    unfold NUM_CUPS at hc
    unfold COURSES_PER_CUP at hs
    exact hall ⟨cup * 4 + slot, by omega⟩
  · intro inId
    by_cases h : inId ∈ courseIdTable
    · obtain ⟨n, hn, _, hget⟩ := GetCourseId_mem inId h
      exact ⟨n, hget, Or.inr ⟨by omega, by omega⟩⟩
    · exact ⟨-1, GetCourseId_not_mem inId h, Or.inl rfl⟩
  · intro output stats
    exact CalculateTimeTrialCode_reject output stats 0 (fun h => absurd h.2.1 (by decide))

/-- C10: for every accepted record the value
`(totalMs << 14) | (ordinal << 9) | kc` is below `2 ^ 32`, so the stored 32-bit word equals
it; the three fields occupy disjoint bits; and each is recovered from the stored word `w`:
`w >> 14 = totalMs`, `(w >> 9) mod 32 = ordinal`, `w mod 512 = kc`. -/
theorem packWord_fields (output : Nat → Char) (stats : RaceStats) (course : Int)
    (h : (CalculateTimeTrialCode output stats course).map Prod.fst = some 1) :
    ∃ ordinal : Nat, GetCourseId course = some (ordinal : Int) ∧
      totalMs stats < 240000 ∧ ordinal < 32 ∧ kartCode stats < 512 ∧
      (totalMs stats <<< 14) ||| (ordinal <<< 9) ||| kartCode stats < 2 ^ 32 ∧
      packWord (totalTime stats) (ordinal : Int) (kartCharacter stats)
        = (totalMs stats <<< 14) ||| (ordinal <<< 9) ||| kartCode stats ∧
      (totalMs stats <<< 14) &&& (ordinal <<< 9) = 0 ∧
      (totalMs stats <<< 14) &&& kartCode stats = 0 ∧
      (ordinal <<< 9) &&& kartCode stats = 0 ∧
      packWord (totalTime stats) (ordinal : Int) (kartCharacter stats) >>> 14 = totalMs stats ∧
      (packWord (totalTime stats) (ordinal : Int) (kartCharacter stats) >>> 9) % 32
        = ordinal ∧
      packWord (totalTime stats) (ordinal : Int) (kartCharacter stats) % 512
        = kartCode stats := by
  obtain ⟨ht, hc, hk⟩ := (returns_one_iff output stats course).1 h
  obtain ⟨n, hn, _, hget⟩ := GetCourseId_mem course hc
  obtain ⟨hw, hsum⟩ := packWord_eq (totalMs stats) n (kartCode stats) ht hn hk
  rw [totalTime_eq, kartCharacter_eq]
  refine ⟨n, hget, ht, hn, hk, by rw [hsum]; omega, hw, ?_, ?_, ?_, ?_, ?_, ?_⟩
  · exact and_shiftLeft_of_lt _ _ _ (by rw [Nat.shiftLeft_eq]; omega)
  · exact and_shiftLeft_of_lt _ _ _ (by omega)
  · exact and_shiftLeft_of_lt _ _ _ (by omega)
  · rw [hw, hsum, Nat.shiftRight_eq_div_pow]; omega
  · rw [hw, hsum, Nat.shiftRight_eq_div_pow]; omega
  · rw [hw, hsum]; omega

/-- Witness of C10: the record of `main` on course 22. -/
theorem packWord_fields_witness :
    (CalculateTimeTrialCode (fun _ => 'x') (mainStats (fun _ => 0) 0 (fun _ => 0)) 22).map
        Prod.fst = some 1 ∧
    ∃ ordinal : Nat, GetCourseId 22 = some (ordinal : Int) ∧
      packWord (totalTime (mainStats (fun _ => 0) 0 (fun _ => 0))) (ordinal : Int)
        (kartCharacter (mainStats (fun _ => 0) 0 (fun _ => 0))) >>> 14 = 45994 :=
  ⟨by decide!,
    match packWord_fields (fun _ => 'x') (mainStats (fun _ => 0) 0 (fun _ => 0)) 22
      (by decide!) with
    | ⟨n, h1, _, _, _, _, _, _, _, _, h2, _⟩ => ⟨n, h1, h2⟩⟩

/-- C11: whenever `CalculateTimeTrialCode` returns 0, by any of the three rejections, the
output buffer is exactly as it was before the call. -/
theorem rejection_keeps_output (output : Nat → Char) (stats : RaceStats) (course : Int)
    (h : (CalculateTimeTrialCode output stats course).map Prod.fst = some 0) :
    CalculateTimeTrialCode output stats course = some (0, output) ∧
    (totalMs stats ≥ 240000 → CalculateTimeTrialCode output stats course = some (0, output)) ∧
    (course ∉ courseIdTable → CalculateTimeTrialCode output stats course = some (0, output)) ∧
    (kartCode stats ≥ 512 → CalculateTimeTrialCode output stats course = some (0, output)) := by
  have hrej : ¬ Accepted stats course := by
    intro hacc
    rw [(returns_one_iff output stats course).2 hacc] at h
    simp at h
  refine ⟨CalculateTimeTrialCode_reject output stats course hrej, ?_, ?_, ?_⟩
  · intro ht
    exact CalculateTimeTrialCode_reject output stats course (fun hacc => by have := hacc.1; omega)
  · intro hc
    exact CalculateTimeTrialCode_reject output stats course (fun hacc => hc hacc.2.1)
  · intro hk
    exact CalculateTimeTrialCode_reject output stats course
      (fun hacc => by have := hacc.2.2; omega)

/-- Witness of C11: the record of `main` on course 0, which is not in the table. -/
theorem rejection_keeps_output_witness :
    (CalculateTimeTrialCode (fun _ => 'x') (mainStats (fun _ => 0) 0 (fun _ => 0)) 0).map
        Prod.fst = some 0 ∧
    CalculateTimeTrialCode (fun _ => 'x') (mainStats (fun _ => 0) 0 (fun _ => 0)) 0
      = some (0, fun _ => 'x') :=
  ⟨by decide!,
    (rejection_keeps_output (fun _ => 'x') (mainStats (fun _ => 0) 0 (fun _ => 0)) 0
      (by decide!)).1⟩

/-- C12: the result of `CalculateTimeTrialCode` depends only on the total
`msecs + 1000 * secs + 60000 * mins`, on `GetCourseId(course)`, on `character * 37 + kart` and
on `playerName[0]`, `playerName[1]`: two calls that agree on these five values return the
same status and, on success, the same 16 characters, whatever `isValid`, `padding`,
`playerName[2..9]` are and however the time is split; with the same output buffer the two
results are identical. -/
theorem result_depends_on_five (o1 o2 : Nat → Char) (s1 s2 : RaceStats) (c1 c2 : Int)
    (ht : s1.msecs.val + 1000 * s1.secs.val + 60000 * s1.mins.val
      = s2.msecs.val + 1000 * s2.secs.val + 60000 * s2.mins.val)
    (hc : GetCourseId c1 = GetCourseId c2)
    (hk : s1.character.val * 37 + s1.kart.val = s2.character.val * 37 + s2.kart.val)
    (h0 : s1.playerName 0 = s2.playerName 0) (h1 : s1.playerName 1 = s2.playerName 1) :
    (CalculateTimeTrialCode o1 s1 c1).map Prod.fst
      = (CalculateTimeTrialCode o2 s2 c2).map Prod.fst ∧
    ((CalculateTimeTrialCode o1 s1 c1).map Prod.fst = some 1 →
      codeOf (CalculateTimeTrialCode o1 s1 c1) = codeOf (CalculateTimeTrialCode o2 s2 c2)) ∧
    CalculateTimeTrialCode o1 s1 c1 = CalculateTimeTrialCode o1 s2 c2 := by
  refine ⟨?_, ?_, ?_⟩
  · rcases encoder_congr o1 o2 s1 s2 c1 c2 ht hc hk h0 h1 with ⟨_, r1, r2⟩ | ⟨_, code, r1, r2⟩
    · rw [r1, r2]; rfl
    · rw [r1, r2]; rfl
  · intro hone
    rcases encoder_congr o1 o2 s1 s2 c1 c2 ht hc hk h0 h1 with ⟨_, r1, r2⟩ | ⟨_, code, r1, r2⟩
    · rw [r1] at hone
      simp at hone
    · rw [r1, r2, codeOf_accept, codeOf_accept]
  · rcases encoder_congr o1 o1 s1 s2 c1 c2 ht hc hk h0 h1 with ⟨_, r1, r2⟩ | ⟨_, code, r1, r2⟩
    · rw [r1, r2]
    · rw [r1, r2]

/-- Witness of C12: the record of `main` and a variant of it, on course 22. -/
theorem result_depends_on_five_witness :
    codeOf (CalculateTimeTrialCode (fun _ => 'x') (mainStats (fun _ => 0) 0 (fun _ => 0)) 22)
      = codeOf (CalculateTimeTrialCode (fun _ => 'y') mainStatsVariant 22) :=
  (result_depends_on_five (fun _ => 'x') (fun _ => 'y') (mainStats (fun _ => 0) 0 (fun _ => 0))
    mainStatsVariant 22 22 (by decide) rfl (by decide) (by decide) (by decide)).2.1 (by decide!)

/-- C13: the obfuscation is reversible by a different transform: for every 10-byte buffer `b`
with image `o`, `b[9] = o[9] XOR 0xC3` and `b[i] = o[i] XOR o[i+1]` for `i` in 0..8, so the
transform is a bijection on 10-byte buffers; and it is not its own inverse: applying it twice
gives back `b[8] XOR 0xC3` in byte 8, hence never the original buffer. -/
theorem obfuscate_reversible :
    (∀ b : List u8, b.length = 10 → ∃ o : List u8, obfuscate b = some o ∧ o.length = 10 ∧
      (b.getD 9 0).val = (o.getD 9 0).val ^^^ 0xC3 ∧
      ∀ i, i < 9 → (b.getD i 0).val = (o.getD i 0).val ^^^ (o.getD (i + 1) 0).val) ∧
    (∀ b c : List u8, b.length = 10 → c.length = 10 → obfuscate b = obfuscate c → b = c) ∧
    (∀ o : List u8, o.length = 10 → ∃ b : List u8, b.length = 10 ∧ obfuscate b = some o) ∧
    (∀ b : List u8, b.length = 10 → ∃ o p : List u8, obfuscate b = some o ∧
      obfuscate o = some p ∧ (p.getD 8 0).val = (b.getD 8 0).val ^^^ 0xC3 ∧ p ≠ b) := by
  refine ⟨?_, obfuscate_injective, ?_, ?_⟩
  · intro b hb
    obtain ⟨o, ho, _⟩ := obfuscate_length b hb
    obtain ⟨hl, h9, hs⟩ := obfuscate_inverse b o hb ho
    exact ⟨o, ho, hl, h9, hs⟩
  · intro o ho
    obtain ⟨o0, o1, o2, o3, o4, o5, o6, o7, o8, o9, rfl⟩ := list10 o ho
    refine ⟨[toU8 (o0.val ^^^ o1.val), toU8 (o1.val ^^^ o2.val), toU8 (o2.val ^^^ o3.val),
      toU8 (o3.val ^^^ o4.val), toU8 (o4.val ^^^ o5.val), toU8 (o5.val ^^^ o6.val),
      toU8 (o6.val ^^^ o7.val), toU8 (o7.val ^^^ o8.val), toU8 (o8.val ^^^ o9.val),
      toU8 (o9.val ^^^ (toU8 0xC3).val)], rfl, ?_⟩
    have hc3 : (toU8 0xC3).val = 0xC3 := rfl
    apply obfuscate10_of_vals <;> rw [toU8_xor_val] <;> try rw [hc3]
    all_goals rw [Nat.xor_cancel_right]
  · intro b hb
    obtain ⟨o, ho, hol⟩ := obfuscate_length b hb
    obtain ⟨p, hp, hpl⟩ := obfuscate_length o hol
    obtain ⟨b0, b1, b2, b3, b4, b5, b6, b7, b8, b9, rfl⟩ := list10 b hb
    obtain ⟨o0, o1, o2, o3, o4, o5, o6, o7, o8, o9, rfl⟩ := list10 o hol
    obtain ⟨p0, p1, p2, p3, p4, p5, p6, p7, p8, p9, rfl⟩ := list10 p hpl
    obtain ⟨k9, k8, _⟩ := obfuscate10_vals _ _ _ _ _ _ _ _ _ _ _ _ _ _ _ _ _ _ _ _ ho
    obtain ⟨m9, m8, _⟩ := obfuscate10_vals _ _ _ _ _ _ _ _ _ _ _ _ _ _ _ _ _ _ _ _ hp
    have e9 : p9.val = b9.val := by rw [m9, k9, Nat.xor_cancel_right]
    have e8 : p8.val = b8.val ^^^ 0xC3 := by
      rw [m8, e9, k8, k9, Nat.xor_assoc, Nat.xor_comm b9.val 0xC3, Nat.xor_cancel_right]
    refine ⟨_, _, ho, hp, e8, ?_⟩
    intro heq
    have h8 : p8 = b8 := by
      have := congrArg (fun l => l.getD 8 0) heq
      exact this
    rw [h8] at e8
    have : b8.val ^^^ 0 = b8.val ^^^ 0xC3 := by rw [Nat.xor_zero]; exact e8
    exact absurd (Nat.xor_right_inj.1 this) (by decide)

/-- C14: for every byte buffer of length `len >= 4` (`len` an `int`), after
`CalculateCodeChecksum(data, len, 1)` has embedded the checksum in the last two bytes,
`CalculateCRC16CCITT` over the whole resulting buffer returns 0; in particular this holds for
the checksum-bearing buffer of every accepted record. -/
theorem checksum_self_check (tick : Nat) (data : List u8) (h4 : 4 ≤ data.length)
    (hint : data.length < 2 ^ 31) :
    (∃ summed : List u8,
      CalculateCodeChecksum tick data (data.length : Int) 1 = some summed ∧
      summed.length = data.length ∧
      summed.take (data.length - 2) = data.take (data.length - 2) ∧
      CalculateCRC16CCITT summed summed.length = some 0) ∧
    (∀ (output : Nat → Char) (stats : RaceStats) (course : Int),
      (CalculateTimeTrialCode output stats course).map Prod.fst = some 1 →
      ∃ (courseId : Int) (packed summed : List u8),
        GetCourseId course = some courseId ∧ packCode stats courseId = some packed ∧
        CalculateCodeChecksum OS_GetTick packed 10 1 = some summed ∧
        CalculateCRC16CCITT summed 10 = some 0) := by
  have gen : ∀ (t : Nat) (l : List u8), 4 ≤ l.length → l.length < 2 ^ 31 →
      ∃ summed : List u8,
        CalculateCodeChecksum t l (l.length : Int) 1 = some summed ∧
        summed.length = l.length ∧
        summed.take (l.length - 2) = l.take (l.length - 2) ∧
        CalculateCRC16CCITT summed summed.length = some 0 := by
    intro t l hl4 hlint
    obtain ⟨d, x, y, hdata, _⟩ := split_last_two l (by omega)
    subst hdata
    have hl : (d ++ [x, y]).length = d.length + 2 := by simp
    rw [hl] at hl4 hlint
    refine ⟨_, by rw [hl]; exact checksum_append_two t d x y hlint hl4, by simp, ?_, ?_⟩
    · rw [hl]; simp
    · rw [CalculateCRC16CCITT_eq, crc_fold_append_two,
        shiftLeft8_xor _ _ (toU8 (crc16Xmodem d &&& 0xff)).isLt,
        crc_bytes_join _ (crc16Xmodem_lt d), Nat.xor_self]
  refine ⟨gen tick data h4 hint, ?_⟩
  intro output stats course h
  have hacc := (returns_one_iff output stats course).1 h
  obtain ⟨n, packed, summed, code, _, _, hget, hpack, hpl, hsum, hsl, _, _, _⟩ :=
    CalculateTimeTrialCode_accept output stats course hacc
  obtain ⟨s2, hs2, _, _, hz⟩ := gen OS_GetTick packed (by omega) (by omega)
  rw [hpl] at hs2
  rw [show ((10 : Nat) : Int) = 10 from rfl, hsum] at hs2
  cases (Option.some.inj hs2)
  rw [hsl] at hz
  exact ⟨n, packed, summed, hget, hpack, hsum, hz⟩

/-- Witness of C14: a buffer of four bytes. -/
theorem checksum_self_check_witness :
    ∃ summed : List u8,
      CalculateCodeChecksum 0 [0x12, 0x34, 0x56, 0x78] 4 1 = some summed ∧
      CalculateCRC16CCITT summed summed.length = some 0 :=
  match (checksum_self_check 0 [0x12, 0x34, 0x56, 0x78] (by decide) (by decide)).1 with
  | ⟨summed, h1, _, _, h2⟩ => ⟨summed, h1, h2⟩

/-- C15: the encoder is injective on the encoded data: two accepted inputs that yield the same
16-character code have equal total times in milliseconds, equal raw course ids, equal
`character * 37 + kart`, and equal `playerName[0]` and `playerName[1]`. -/
theorem encoder_injective (o1 o2 : Nat → Char) (s1 s2 : RaceStats) (c1 c2 : Int)
    (cs : List Char)
    (h1 : codeOf (CalculateTimeTrialCode o1 s1 c1) = some (1, cs))
    (h2 : codeOf (CalculateTimeTrialCode o2 s2 c2) = some (1, cs)) :
    s1.msecs.val + 1000 * s1.secs.val + 60000 * s1.mins.val
      = s2.msecs.val + 1000 * s2.secs.val + 60000 * s2.mins.val ∧
    c1 = c2 ∧
    s1.character.val * 37 + s1.kart.val = s2.character.val * 37 + s2.kart.val ∧
    s1.playerName 0 = s2.playerName 0 ∧ s1.playerName 1 = s2.playerName 1 := by
  obtain ⟨n1, p1, m1, code1, ht1, hn1, hk1, htab1, hp1, _, hm1, hml1, hb1, hcl1, hcs1⟩ :=
    codeOf_run o1 s1 c1 cs h1
  obtain ⟨n2, p2, m2, code2, ht2, hn2, hk2, htab2, hp2, _, hm2, hml2, hb2, hcl2, hcs2⟩ :=
    codeOf_run o2 s2 c2 cs h2
  -- the groups, hence the obfuscated buffers, are equal
  have hgroups : ∀ g, g < 16 → groupValue code1 g = groupValue code2 g := by
    intro g hg
    have := (List.map_inj_left.1 (hcs1.symm.trans hcs2)) g (List.mem_range.2 hg)
    exact letterTable_injective _ _ (groupValue_lt code1 g) (groupValue_lt code2 g) this
  have hval : beValue code1 = beValue code2 :=
    eq_of_groups _ _ (beValue10_lt code1 hcl1) (beValue10_lt code2 hcl2) hgroups
  have hcode : code1 = code2 := beValue_injective code1 code2 (by rw [hcl1, hcl2]) hval
  -- the XOR loop is injective
  have hsummed : m1 = m2 := obfuscate_injective m1 m2 hml1 hml2 (by rw [hb1, hb2, hcode])
  -- the checksum step keeps bytes 0..7
  rw [packCode_eq] at hp1 hp2
  cases (Option.some.inj hp1)
  cases (Option.some.inj hp2)
  rw [checksum10] at hm1 hm2
  rw [← Option.some.inj hm1, ← Option.some.inj hm2] at hsummed
  simp only [List.cons.injEq] at hsummed
  obtain ⟨w0, w1, w2, w3, a0, a1, a2, a3, _⟩ := hsummed
  rw [totalTime_eq, kartCharacter_eq, totalTime_eq, kartCharacter_eq] at w0 w1 w2 w3
  obtain ⟨e1, f1⟩ := packWord_eq (totalMs s1) n1 (kartCode s1) ht1 hn1 hk1
  obtain ⟨e2, f2⟩ := packWord_eq (totalMs s2) n2 (kartCode s2) ht2 hn2 hk2
  have hW := u32_bytes_injective _ _ (by rw [e1, f1]; omega) (by rw [e2, f2]; omega)
    w0 w1 w2 w3
  rw [e1, f1, e2, f2] at hW
  have hn : n1 = n2 := by omega
  have hcourse : c1 = c2 := by
    rw [hn, htab2] at htab1
    exact (Option.some.inj htab1).symm
  exact ⟨by unfold totalMs at hW ht1 ht2; unfold kartCode at hW hk1 hk2; omega, hcourse,
    by unfold totalMs at hW ht1 ht2; unfold kartCode at hW hk1 hk2; omega,
    u16_bytes_injective _ _ a0 a1, u16_bytes_injective _ _ a2 a3⟩

/-- Witness of C15: the record of `main` and its variant, both on course 22, yield the code
`7XXRYRL4SXSYY5NN`. -/
theorem encoder_injective_witness :
    codeOf (CalculateTimeTrialCode (fun _ => 'x') (mainStats (fun _ => 0) 0 (fun _ => 0)) 22)
      = some (1, "7XXRYRL4SXSYY5NN".toList) ∧
    codeOf (CalculateTimeTrialCode (fun _ => 'y') mainStatsVariant 22)
      = some (1, "7XXRYRL4SXSYY5NN".toList) ∧
    (mainStats (fun _ => 0) 0 (fun _ => 0)).msecs.val
        + 1000 * (mainStats (fun _ => 0) 0 (fun _ => 0)).secs.val
        + 60000 * (mainStats (fun _ => 0) 0 (fun _ => 0)).mins.val
      = mainStatsVariant.msecs.val + 1000 * mainStatsVariant.secs.val
        + 60000 * mainStatsVariant.mins.val :=
  ⟨by decide!, by decide!,
    (encoder_injective (fun _ => 'x') (fun _ => 'y') (mainStats (fun _ => 0) 0 (fun _ => 0))
      mainStatsVariant 22 22 "7XXRYRL4SXSYY5NN".toList (by decide!) (by decide!)).1⟩

/-- C16: for every byte sequence `d`, `CalculateCRC16CCITT` applied to `d` followed by two zero
bytes equals the byte-wise CRC-16/XMODEM of `d` alone (`crc16Xmodem`: register 0 at the start;
per byte, XOR the byte into the high 8 bits, then 8 times shift left and XOR `0x1021` when the
bit shifted out was 1). So the checksum that `CalculateCodeChecksum(code, 10, 1)` stores in
bytes 8..9 is the CRC-16/XMODEM of bytes 0..7. -/
theorem CalculateCRC16CCITT_two_zero_bytes :
    (∀ d : List u8,
      CalculateCRC16CCITT (d ++ [0, 0]) (d.length + 2) = some (crc16Xmodem d)) ∧
    (∀ (tick : Nat) (code : List u8), code.length = 10 →
      ∃ summed : List u8, CalculateCodeChecksum tick code 10 1 = some summed ∧
        summed.length = 10 ∧ summed.take 8 = code.take 8 ∧
        (summed.getD 8 0).val = crc16Xmodem (code.take 8) >>> 8 ∧
        (summed.getD 9 0).val = crc16Xmodem (code.take 8) &&& 0xff ∧
        256 * (summed.getD 8 0).val + (summed.getD 9 0).val = crc16Xmodem (code.take 8)) := by
  have hz : ∀ d : List u8, (d ++ [(0 : u8), 0]).foldl crcByte 0 = crc16Xmodem d := by
    intro d
    rw [crc_fold_append_two]
    simp
  constructor
  · intro d
    have hl : (d ++ [(0 : u8), 0]).length = d.length + 2 := by simp
    rw [← hl, CalculateCRC16CCITT_eq, hz]
  · intro tick code hlen
    obtain ⟨b0, b1, b2, b3, b4, b5, b6, b7, b8, b9, rfl⟩ := list10 code hlen
    have hx := hz [b0, b1, b2, b3, b4, b5, b6, b7]
    have hlt := crc16Xmodem_lt [b0, b1, b2, b3, b4, b5, b6, b7]
    have hj := crc_bytes_join _ hlt
    refine ⟨_, checksum10 tick b0 b1 b2 b3 b4 b5 b6 b7 b8 b9, rfl, rfl, ?_, ?_, ?_⟩
    · show (toU8 (List.foldl crcByte 0 ([b0, b1, b2, b3, b4, b5, b6, b7] ++ [0, 0]) >>> 8)).val
        = crc16Xmodem [b0, b1, b2, b3, b4, b5, b6, b7] >>> 8
      rw [hx, toU8_val, Nat.shiftRight_eq_div_pow]
      omega
    · show (toU8 (List.foldl crcByte 0 ([b0, b1, b2, b3, b4, b5, b6, b7] ++ [0, 0])
        &&& 0xff)).val = crc16Xmodem [b0, b1, b2, b3, b4, b5, b6, b7] &&& 0xff
      have e : (0xff : Nat) = 2 ^ 8 - 1 := by decide
      rw [hx, toU8_val, e, Nat.and_pow_two_sub_one_eq_mod]
      omega
    · show 256 * (toU8 (List.foldl crcByte 0 ([b0, b1, b2, b3, b4, b5, b6, b7] ++ [0, 0])
          >>> 8)).val
        + (toU8 (List.foldl crcByte 0 ([b0, b1, b2, b3, b4, b5, b6, b7] ++ [0, 0])
          &&& 0xff)).val = crc16Xmodem [b0, b1, b2, b3, b4, b5, b6, b7]
      rw [hx]
      omega

/-- C17: the claim is that for every accepted record `character * 37 + kart` gives back the
character id as quotient and the kart id as remainder of the division by 37. The encoder
accepts character 0 with kart 37 (it returns 1), where the packed value 37 has quotient 1 and
remainder 0; the decomposition holds exactly for the records with `kart < 37`, which the
encoder does not check. -/
theorem kartCharacter_quotient_remainder :
    (CalculateTimeTrialCode (fun _ => 'x') kart37Stats 22).map Prod.fst = some 1 ∧
    kart37Stats.character.val = 0 ∧ kart37Stats.kart.val = 37 ∧
    kartCharacter kart37Stats = 37 ∧
    kartCharacter kart37Stats / 37 = 1 ∧ kartCharacter kart37Stats % 37 = 0 ∧
    (∀ stats : RaceStats, stats.kart.val < 37 →
      kartCharacter stats / 37 = stats.character.val ∧
      kartCharacter stats % 37 = stats.kart.val) := by
  refine ⟨by decide!, by decide, by decide, by decide, by decide, by decide, ?_⟩
  intro stats hk
  have hc := stats.character.isLt
  rw [kartCharacter_eq]
  unfold kartCode
  omega

/-- C18: if two 10-byte buffers differ only at index `j`, with XOR difference `d` there and
`d` not zero, then their obfuscated images differ by exactly `d` at every index `i <= j` and
are equal at every index `i > j`. So a change of byte 9 changes all ten obfuscated bytes and a
change of byte 8 changes bytes 0..8. -/
theorem obfuscate_diffusion (b c : List u8) (j d : Nat) (hb : b.length = 10)
    (hc : c.length = 10) (hj : j < 10)
    (hsame : ∀ i, i < 10 → i ≠ j → b.getD i 0 = c.getD i 0)
    (hd : (b.getD j 0).val ^^^ (c.getD j 0).val = d) (hd0 : d ≠ 0) :
    ∃ o p : List u8, obfuscate b = some o ∧ obfuscate c = some p ∧
      o.length = 10 ∧ p.length = 10 ∧
      (∀ i, i ≤ j → (o.getD i 0).val ^^^ (p.getD i 0).val = d ∧ o.getD i 0 ≠ p.getD i 0) ∧
      (∀ i, j < i → i < 10 → o.getD i 0 = p.getD i 0) := by
  obtain ⟨o, ho, hol, o9, os⟩ := obfuscate_step b hb
  obtain ⟨p, hp, hpl, p9, ps⟩ := obfuscate_step c hc
  have key : ∀ k, k ≤ 9 →
      (j < 9 - k → (o.getD (9 - k) 0).val = (p.getD (9 - k) 0).val) ∧
      (9 - k ≤ j → (o.getD (9 - k) 0).val ^^^ (p.getD (9 - k) 0).val = d) := by
    intro k
    induction k with
    | zero =>
      intro _
      constructor
      · intro h
        rw [o9, p9, hsame 9 (by omega) (by omega)]
      · intro h
        have e : j = 9 := by omega
        subst e
        rw [o9, p9, xor_xor_cancel_right]
        exact hd
    | succ k ih =>
      intro hk
      obtain ⟨ih1, ih2⟩ := ih (by omega)
      have e : 9 - (k + 1) + 1 = 9 - k := by omega
      have ob := os (9 - (k + 1)) (by omega)
      have pb := ps (9 - (k + 1)) (by omega)
      rw [e] at ob pb
      constructor
      · intro h
        rw [ob, pb, hsame _ (by omega) (by omega), ih1 (by omega)]
      · intro h
        by_cases hjk : 9 - (k + 1) = j
        · rw [ob, pb, ih1 (by omega), xor_xor_cancel_right, hjk]
          exact hd
        · rw [ob, pb, hsame _ (by omega) hjk, xor_xor_cancel_left]
          exact ih2 (by omega)
  refine ⟨o, p, ho, hp, hol, hpl, ?_, ?_⟩
  · intro i hi
    have := (key (9 - i) (by omega)).2
    have e : 9 - (9 - i) = i := by omega
    rw [e] at this
    refine ⟨this hi, ?_⟩
    intro heq
    have h2 := this hi
    rw [heq, Nat.xor_self] at h2
    exact hd0 h2.symm
  · intro i hji hi
    have := (key (9 - i) (by omega)).1
    have e : 9 - (9 - i) = i := by omega
    rw [e] at this
    exact Fin.ext (this hji)

/-- Witness of C18: the checksum-bearing buffer of the record of `main` and the same buffer
with `0xF3` instead of `0xF2` in byte 9. -/
theorem obfuscate_diffusion_witness :
    ∃ o p : List u8,
      obfuscate [0x00, 0x83, 0xEA, 0x2C, 0x4D, 0x00, 0x4B, 0x00, 0x7B, 0xF2] = some o ∧
      obfuscate [0x00, 0x83, 0xEA, 0x2C, 0x4D, 0x00, 0x4B, 0x00, 0x7B, 0xF3] = some p ∧
      ∀ i, i ≤ 9 → (o.getD i 0).val ^^^ (p.getD i 0).val = 1 ∧ o.getD i 0 ≠ p.getD i 0 :=
  match obfuscate_diffusion [0x00, 0x83, 0xEA, 0x2C, 0x4D, 0x00, 0x4B, 0x00, 0x7B, 0xF2]
    [0x00, 0x83, 0xEA, 0x2C, 0x4D, 0x00, 0x4B, 0x00, 0x7B, 0xF3] 9 1 rfl rfl (by decide)
    (by decide) (by decide) (by decide) with
  | ⟨o, p, h1, h2, _, _, h3, _⟩ => ⟨o, p, h1, h2, h3⟩

/-- C19, as stated, fails for tick 1 on the all-zero buffer: the legacy mode stores the
checksum `00 00`, the CRC with offsets 6..7 zero, while the CRC over the buffer that holds the
stamped bytes `00 01` at offsets 6..7 is `0x1021`. -/
theorem legacy_checksum_not_over_stamp :
    CalculateCodeChecksum 1 [0, 0, 0, 0, 0, 0, 0, 0, 0, 0] 10 0
      = some [0, 0, 0, 0, 0, 0, 0, 1, 0, 0] ∧
    toU8 ((1 >>> 16) &&& 0xff) = 0 ∧ toU8 (1 &&& 0xff) = 1 ∧
    CalculateCRC16CCITT [0, 0, 0, 0, 0, 0, 0, 1, 0, 0] 10 = some 0x1021 ∧
    toU8 (0x1021 >>> 8) ≠ 0 ∧ toU8 (0x1021 &&& 0xff) ≠ 0 := by
  decide!

/-- C19, amended: in the legacy mode (`flag = 0`, `len = 10`, tick `t`), offsets 6..7 are
zeroed before the checksum is computed and the two timestamp bytes `(t >> 16) & 0xff` and
`t & 0xff` are stamped into offsets 6..7 after it: the result keeps bytes 0..5, holds the
timestamp bytes at offsets 6..7, and the checksum stored in bytes 8..9 (high byte first) is
`CalculateCRC16CCITT` over the buffer with zeros at offsets 6..9. -/
theorem legacy_checksum (tick : Nat) (data : List u8) (h : data.length = 10) :
    ∃ (out : List u8) (crc : Nat),
      CalculateCodeChecksum tick data 10 0 = some out ∧ out.length = 10 ∧
      out.take 6 = data.take 6 ∧
      (out.getD 6 0).val = (tick >>> 16) &&& 0xff ∧ (out.getD 7 0).val = tick &&& 0xff ∧
      CalculateCRC16CCITT (data.take 6 ++ [0, 0, 0, 0]) 10 = some crc ∧ crc < 65536 ∧
      (out.getD 8 0).val = crc >>> 8 ∧ (out.getD 9 0).val = crc &&& 0xff := by
  obtain ⟨b0, b1, b2, b3, b4, b5, b6, b7, b8, b9, rfl⟩ := list10 data h
  have hlt := crc_fold_lt [b0, b1, b2, b3, b4, b5, toU8 0, toU8 0, toU8 0, toU8 0] 0
    (by decide)
  have e : (0xff : Nat) = 2 ^ 8 - 1 := by decide
  refine ⟨_, List.foldl crcByte 0 [b0, b1, b2, b3, b4, b5, toU8 0, toU8 0, toU8 0, toU8 0],
    checksum10_legacy tick b0 b1 b2 b3 b4 b5 b6 b7 b8 b9, rfl, rfl, ?_, ?_,
    CalculateCRC16CCITT_eq [b0, b1, b2, b3, b4, b5, toU8 0, toU8 0, toU8 0, toU8 0], hlt,
    ?_, ?_⟩
  · show ((tick >>> 16) &&& 0xff) % 256 = _
    rw [e, Nat.and_pow_two_sub_one_eq_mod]
    omega
  · show (tick &&& 0xff) % 256 = _
    rw [e, Nat.and_pow_two_sub_one_eq_mod]
    omega
  · show (_ >>> 8) % 256 = _
    rw [Nat.shiftRight_eq_div_pow]
    omega
  · show (_ &&& 0xff) % 256 = _
    rw [e, Nat.and_pow_two_sub_one_eq_mod]
    omega

/-- Witness of C19: the all-zero buffer with tick `0x12345`. -/
theorem legacy_checksum_witness :
    ∃ out : List u8,
      CalculateCodeChecksum 0x12345 [0, 0, 0, 0, 0, 0, 0, 0, 0, 0] 10 0 = some out ∧
      (out.getD 6 0).val = (0x12345 >>> 16) &&& 0xff ∧ (out.getD 7 0).val = 0x12345 &&& 0xff :=
  match legacy_checksum 0x12345 [0, 0, 0, 0, 0, 0, 0, 0, 0, 0] rfl with
  | ⟨out, _, h1, _, _, h2, h3, _⟩ => ⟨out, h1, h2, h3⟩

end MKDSTT
